import Mathlib

/-!
Shallow embedding of the `rust-order-book` matching engine
(`src/types/order.rs`, `src/engine/hashmap_order_book.rs`,
`src/engine/priority_queue_order_book.rs`, `src/engine/array_queue_order_book.rs`,
`src/router/order_router.rs`) together with proofs about the claims of the
specification.

Machine integers (`u64`, `u16`, `u32`) are embedded as `Nat`: all the
operations the claims touch (price comparison, counting, queue lengths)
stay far below `2^64` overflow, and no wrap-around arithmetic occurs in
the embedded code paths.

Rust library containers are embedded by their documented sequential
semantics:
* `BTreeMap<u64, _>` becomes an association list strictly sorted by key;
* `VecDeque` becomes a list (`push_back` appends, `pop_front` takes the head);
* `BinaryHeap` becomes a list of the pushed elements where `pop`/`peek`
  select a maximal element under the element ordering (the leftmost maximal
  element; with the distinct order identifiers the claims assume, the
  maximum is unique, which is exactly the situation in which `BinaryHeap`'s
  pop order is determined);
* `crossbeam::queue::ArrayQueue` becomes a list with a capacity bound
  (`push` fails when full, `force_push` evicts the oldest element).
-/

set_option maxHeartbeats 1000000

namespace RustOB

/-- `OrderSide` from `src/types/order.rs`. -/
inductive OrderSide where
  | Buy : OrderSide
  | Sell : OrderSide
deriving DecidableEq, Repr

/-- `Order` from `src/types/order.rs` (u64/u16 fields embedded as `Nat`). -/
structure Order where
  id : Nat
  symbol : Nat
  quantity : Nat
  price : Nat
  order_type : OrderSide
deriving DecidableEq, Repr

/-! ## HashMap backend (`src/engine/hashmap_order_book.rs`) -/

/-- `PriceLevel` from `hashmap_order_book.rs`: a FIFO of orders at one price
plus the cached aggregate count and quantity (the 64-byte padding field is
layout only and is not modelled). -/
structure PriceLevel where
  orders : List Order
  count : Nat
  total_quantity : Nat
deriving DecidableEq, Repr

namespace PriceLevel

/-- `PriceLevel::new`. -/
def new : PriceLevel := { orders := [], count := 0, total_quantity := 0 }

/-- `PriceLevel::is_empty` (`count == 0`). -/
def isEmpty (l : PriceLevel) : Bool := l.count == 0

/-- `PriceLevel::push_back`. -/
def push_back (l : PriceLevel) (o : Order) : PriceLevel :=
  { orders := l.orders ++ [o]
    count := l.count + 1
    total_quantity := l.total_quantity + o.quantity }

/-- `PriceLevel::pop_front`. -/
def pop_front (l : PriceLevel) : Option (Order × PriceLevel) :=
  match l.orders with
  | [] => none
  | o :: rest =>
    some (o, { orders := rest, count := l.count - 1,
               total_quantity := l.total_quantity - o.quantity })

end PriceLevel

/-- A `BTreeMap<u64, PriceLevel>` embedded as an association list sorted by
strictly ascending price key. -/
abbrev Levels := List (Nat × PriceLevel)

namespace Levels

/-- `levels.entry(price).or_insert_with(PriceLevel::new).push_back(order)`:
insert into the level at `price`, creating it (in sorted position) if absent. -/
def add (levels : Levels) (price : Nat) (o : Order) : Levels :=
  match levels with
  | [] => [(price, PriceLevel.new.push_back o)]
  | (p, lv) :: rest =>
    if price < p then (price, PriceLevel.new.push_back o) :: (p, lv) :: rest
    else if price = p then (p, lv.push_back o) :: rest
    else (p, lv) :: add rest price o

/-- `levels.get(&p)`. -/
def get (levels : Levels) (p : Nat) : Option PriceLevel :=
  match levels with
  | [] => none
  | (q, lv) :: rest => if q = p then some lv else get rest p

/-- `levels.get_mut(&p).and_then(|level| level.pop_front())`, returning the
popped order (if any) together with the updated map. -/
def popAt (levels : Levels) (p : Nat) : Option Order × Levels :=
  match levels with
  | [] => (none, [])
  | (q, lv) :: rest =>
    if q = p then
      match lv.pop_front with
      | some (o, lv') => (some o, (q, lv') :: rest)
      | none => (none, (q, lv) :: rest)
    else
      let r := popAt rest p
      (r.1, (q, lv) :: r.2)

/-- `levels.remove(&p)`. -/
def remove (levels : Levels) (p : Nat) : Levels :=
  match levels with
  | [] => []
  | (q, lv) :: rest => if q = p then rest else (q, lv) :: remove rest p

/-- `if levels.get(&p).is_none_or(|level| level.is_empty()) { levels.remove(&p); }`
from `HashMapMatcher::match_orders`. -/
def removeIfEmpty (levels : Levels) (p : Nat) : Levels :=
  match get levels p with
  | some lv => if lv.isEmpty then remove levels p else levels
  | none => remove levels p

/-- All orders resting in the map, in ascending-price, FIFO-within-level
order. -/
def flat (levels : Levels) : List Order :=
  levels.flatMap (fun e => e.2.orders)

end Levels

/-- `HashMapMatcher` from `hashmap_order_book.rs` (padding not modelled). -/
structure HashMapMatcher where
  bid_levels : Levels
  ask_levels : Levels
deriving DecidableEq, Repr

namespace HashMapMatcher

/-- `HashMapMatcher::new`. -/
def new : HashMapMatcher := { bid_levels := [], ask_levels := [] }

/-- `HashMapMatcher::add_order` (the `unsafe add_order_unchecked` has the
identical body). -/
def add_order (m : HashMapMatcher) (o : Order) : HashMapMatcher :=
  match o.order_type with
  | OrderSide.Buy => { m with bid_levels := m.bid_levels.add o.price o }
  | OrderSide.Sell => { m with ask_levels := m.ask_levels.add o.price o }

/-- `HashMapMatcher::get_best_bid`: walk the ordered map from the highest
price to the first non-empty level. -/
def get_best_bid (m : HashMapMatcher) : Option Nat :=
  (m.bid_levels.reverse.find? (fun e => !e.2.isEmpty)).map (fun e => e.1)

/-- `HashMapMatcher::get_best_ask`: walk the ordered map from the lowest
price to the first non-empty level. -/
def get_best_ask (m : HashMapMatcher) : Option Nat :=
  (m.ask_levels.find? (fun e => !e.2.isEmpty)).map (fun e => e.1)

/-- `HashMapMatcher::get_best_prices`. -/
def get_best_prices (m : HashMapMatcher) : Option Nat × Option Nat :=
  (m.get_best_bid, m.get_best_ask)

/-- `HashMapMatcher::can_match`. -/
def can_match (m : HashMapMatcher) : Bool :=
  match m.get_best_bid, m.get_best_ask with
  | some bid, some ask => ask ≤ bid
  | _, _ => false

/-- One test of the `loop` condition plus the loop body of
`HashMapMatcher::match_orders`, instrumented to also return the pairs of
orders removed together as matches (the Rust code drops the popped orders;
they are recorded here so the matched-pair claims can be stated). `fuel`
bounds the iteration count; `match_orders` supplies enough fuel for the
loop to run exactly as long as the Rust `loop` does. -/
def matchLoop : Nat → HashMapMatcher → List (Order × Order) × HashMapMatcher
  | 0, m => ([], m)
  | fuel + 1, m =>
    match m.get_best_bid, m.get_best_ask with
    | some bid_price, some ask_price =>
      if ask_price ≤ bid_price then
        let br := m.bid_levels.popAt bid_price
        let ar := m.ask_levels.popAt ask_price
        match br.1, ar.1 with
        | some b, some a =>
          let m' : HashMapMatcher :=
            { bid_levels := br.2.removeIfEmpty bid_price
              ask_levels := ar.2.removeIfEmpty ask_price }
          let rest := matchLoop fuel m'
          ((b, a) :: rest.1, rest.2)
        | _, _ => ([], { bid_levels := br.2, ask_levels := ar.2 })
      else ([], m)
    | _, _ => ([], m)

/-- Total number of resting orders (used only to size the loop fuel). -/
def size (m : HashMapMatcher) : Nat :=
  m.bid_levels.flat.length + m.ask_levels.flat.length

/-- `HashMapMatcher::match_orders`, instrumented with the matched pairs.
Each loop iteration removes one order from each side, so `size m + 1`
iterations of fuel are more than the loop can ever use: the returned state
is the loop's true fixed point. -/
def match_orders (m : HashMapMatcher) : List (Order × Order) × HashMapMatcher :=
  matchLoop (m.size + 1) m

/-- Fold a whole order sequence into an initially empty matcher, as the
book-level `add_order` does for orders on one valid symbol. -/
def ofList (os : List Order) : HashMapMatcher :=
  os.foldl add_order new

end HashMapMatcher

/-! ## Priority-Queue backend (`src/engine/priority_queue_order_book.rs`) -/

/-- `impl Ord for BidOrder`: price ascending, ties broken by comparing the
other identifier against this one (so the *lower* identifier is the greater
bid). -/
def bidCmp (x y : Order) : Ordering :=
  match compare x.price y.price with
  | Ordering.eq => compare y.id x.id
  | o => o

/-- `impl Ord for AskOrder`: price descending (the lower price is the
greater ask), ties broken by preferring the lower identifier. -/
def askCmp (x y : Order) : Ordering :=
  match compare y.price x.price with
  | Ordering.eq => compare y.id x.id
  | o => o

/-- `BinaryHeap::pop` under comparison `cmp`: remove and return a maximal
element (the leftmost maximal one; unique whenever `cmp` is antisymmetric
on the elements present, as it is for distinct order identifiers). -/
def heapPop (cmp : Order → Order → Ordering) :
    List Order → Option (Order × List Order)
  | [] => none
  | o :: rest =>
    match heapPop cmp rest with
    | none => some (o, [])
    | some (m, rest') =>
      if cmp o m = Ordering.lt then some (m, o :: rest') else some (o, rest)

/-- `BinaryHeap::peek` under comparison `cmp`. -/
def heapPeek (cmp : Order → Order → Ordering) (l : List Order) : Option Order :=
  (heapPop cmp l).map (fun r => r.1)

/-- `PriorityQueueMatcher` from `priority_queue_order_book.rs`: the two
heaps (as lists of pushed orders) and the cached best prices. -/
structure PriorityQueueMatcher where
  bids : List Order
  asks : List Order
  best_bid : Option Nat
  best_ask : Option Nat
deriving DecidableEq, Repr

namespace PriorityQueueMatcher

/-- `PriorityQueueMatcher::new`. -/
def new : PriorityQueueMatcher :=
  { bids := [], asks := [], best_bid := none, best_ask := none }

/-- `PriorityQueueMatcher::add_order`: push onto the side's heap and update
the cached best price as a running extreme. -/
def add_order (m : PriorityQueueMatcher) (o : Order) : PriorityQueueMatcher :=
  match o.order_type with
  | OrderSide.Buy =>
    { m with bids := o :: m.bids
             best_bid := some (match m.best_bid with
                               | some current => max current o.price
                               | none => o.price) }
  | OrderSide.Sell =>
    { m with asks := o :: m.asks
             best_ask := some (match m.best_ask with
                               | some current => min current o.price
                               | none => o.price) }

/-- `PriorityQueueMatcher::can_match` (compares the cached best prices). -/
def can_match (m : PriorityQueueMatcher) : Bool :=
  match m.best_bid, m.best_ask with
  | some bid, some ask => ask ≤ bid
  | _, _ => false

/-- The `while` loop of `PriorityQueueMatcher::match_orders`, instrumented
with the matched pairs. Note that when exactly one of the two pops succeeds
the Rust code still consumed (and thereby drops) that order before
breaking; the model does the same. -/
def matchLoop : Nat → PriorityQueueMatcher →
    List (Order × Order) × PriorityQueueMatcher
  | 0, m => ([], m)
  | fuel + 1, m =>
    if m.can_match then
      match heapPop bidCmp m.bids, heapPop askCmp m.asks with
      | some (b, bids'), some (a, asks') =>
        let m' : PriorityQueueMatcher :=
          { bids := bids', asks := asks'
            best_bid := (heapPeek bidCmp bids').map (fun o => o.price)
            best_ask := (heapPeek askCmp asks').map (fun o => o.price) }
        let rest := matchLoop fuel m'
        ((b, a) :: rest.1, rest.2)
      | some (_, bids'), none => ([], { m with bids := bids' })
      | none, some (_, asks') => ([], { m with asks := asks' })
      | none, none => ([], m)
    else ([], m)

/-- `PriorityQueueMatcher::match_orders`, instrumented with the matched
pairs; `bids.length + asks.length + 1` fuel is more than the loop can use
(each iteration removes one order from each heap). -/
def match_orders (m : PriorityQueueMatcher) :
    List (Order × Order) × PriorityQueueMatcher :=
  matchLoop (m.bids.length + m.asks.length + 1) m

/-- `PriorityQueueMatcher::get_best_prices`: re-derived from the heap tops,
not from the cache. -/
def get_best_prices (m : PriorityQueueMatcher) : Option Nat × Option Nat :=
  ((heapPeek bidCmp m.bids).map (fun o => o.price),
   (heapPeek askCmp m.asks).map (fun o => o.price))

/-- Fold a whole order sequence into an initially empty matcher. -/
def ofList (os : List Order) : PriorityQueueMatcher :=
  os.foldl add_order new

end PriorityQueueMatcher

/-! ## Array-Queue backend (`src/engine/array_queue_order_book.rs`) -/

/-- `DEFAULT_QUEUE_SIZE` from `array_queue_order_book.rs`. -/
def DEFAULT_QUEUE_SIZE : Nat := 4096

/-- `crossbeam::queue::ArrayQueue<Order>`: a bounded FIFO ring buffer,
embedded as its capacity plus the list of queued orders, front first. -/
structure ArrayQueue where
  cap : Nat
  items : List Order
deriving DecidableEq, Repr

namespace ArrayQueue

/-- `ArrayQueue::new(cap)`. -/
def new (cap : Nat) : ArrayQueue := { cap := cap, items := [] }

/-- `ArrayQueue::push`: appends at the back, failing (returning the queue
unchanged and `false`) when the queue is full. -/
def push (q : ArrayQueue) (o : Order) : ArrayQueue × Bool :=
  if q.items.length < q.cap then ({ q with items := q.items ++ [o] }, true)
  else (q, false)

/-- `ArrayQueue::force_push`: appends at the back, evicting the oldest
element when the queue is full (capacity is `DEFAULT_QUEUE_SIZE > 0` in
this program, so the zero-capacity corner of `force_push` never arises). -/
def force_push (q : ArrayQueue) (o : Order) : ArrayQueue :=
  if q.items.length < q.cap then { q with items := q.items ++ [o] }
  else if q.cap = 0 then q
  else { q with items := q.items.tail ++ [o] }

/-- `ArrayQueue::pop`: takes the front element. -/
def pop (q : ArrayQueue) : Option (Order × ArrayQueue) :=
  match q.items with
  | [] => none
  | o :: rest => some (o, { q with items := rest })

/-- `ArrayQueue::is_empty`. -/
def isEmpty (q : ArrayQueue) : Bool := q.items.isEmpty

end ArrayQueue

/-- `ArrayQueueMatcher` from `array_queue_order_book.rs`: the two rings and
the cached extrema (max bid price / min ask price observed since the last
reset). -/
structure ArrayQueueMatcher where
  bids : ArrayQueue
  asks : ArrayQueue
  best_bid : Option Nat
  best_ask : Option Nat
deriving DecidableEq, Repr

namespace ArrayQueueMatcher

/-- `ArrayQueueMatcher::new`. -/
def new : ArrayQueueMatcher :=
  { bids := ArrayQueue.new DEFAULT_QUEUE_SIZE
    asks := ArrayQueue.new DEFAULT_QUEUE_SIZE
    best_bid := none, best_ask := none }

/-- `ArrayQueueMatcher::add_order`: checked push; on success the cached
extremum is advanced, on failure (full ring) state is untouched and
`false` is returned. -/
def add_order (m : ArrayQueueMatcher) (o : Order) : ArrayQueueMatcher × Bool :=
  match o.order_type with
  | OrderSide.Buy =>
    let r := m.bids.push o
    if r.2 then
      ({ m with bids := r.1
                best_bid := some (match m.best_bid with
                                  | some current => max current o.price
                                  | none => o.price) }, true)
    else (m, false)
  | OrderSide.Sell =>
    let r := m.asks.push o
    if r.2 then
      ({ m with asks := r.1
                best_ask := some (match m.best_ask with
                                  | some current => min current o.price
                                  | none => o.price) }, true)
    else (m, false)

/-- `ArrayQueueMatcher::add_order_unchecked`: `force_push` (evicting the
oldest order when full) and unconditionally advance the cached extremum. -/
def add_order_unchecked (m : ArrayQueueMatcher) (o : Order) : ArrayQueueMatcher :=
  match o.order_type with
  | OrderSide.Buy =>
    { m with bids := m.bids.force_push o
             best_bid := some (match m.best_bid with
                               | some current => max current o.price
                               | none => o.price) }
  | OrderSide.Sell =>
    { m with asks := m.asks.force_push o
             best_ask := some (match m.best_ask with
                               | some current => min current o.price
                               | none => o.price) }

/-- `ArrayQueueMatcher::can_match_optimistic`. -/
def can_match_optimistic (m : ArrayQueueMatcher) : Bool :=
  match m.best_bid, m.best_ask with
  | some bid, some ask => ask ≤ bid && !m.bids.isEmpty && !m.asks.isEmpty
  | _, _ => false

/-- The bounded `for _ in 0..max_matches` loop inside
`ArrayQueueMatcher::match_orders`, carrying `matched_count`. A non-crossing
front pair is pushed back (at the back of each ring) and the loop stops. -/
def matchAttempts : Nat → ArrayQueueMatcher → Nat → Nat × ArrayQueueMatcher
  | 0, m, cnt => (cnt, m)
  | n + 1, m, cnt =>
    if m.can_match_optimistic then
      match m.bids.pop, m.asks.pop with
      | some (b, bq), some (a, aq) =>
        if a.price ≤ b.price then
          matchAttempts n { m with bids := bq, asks := aq } (cnt + 1)
        else
          (cnt, { m with bids := (bq.push b).1, asks := (aq.push a).1 })
      | some (_, bq), none => (cnt, { m with bids := bq })
      | none, some (_, aq) => (cnt, { m with asks := aq })
      | none, none => (cnt, m)
    else (cnt, m)

/-- `max_matches` from `ArrayQueueMatcher::match_orders`. -/
def max_matches : Nat := 100

/-- `ArrayQueueMatcher::recalculate_best_prices`: both cached extrema are
simply cleared. -/
def recalculate_best_prices (m : ArrayQueueMatcher) : ArrayQueueMatcher :=
  { m with best_bid := none, best_ask := none }

/-- `ArrayQueueMatcher::match_orders`, instrumented with the number of
matches made during the call. -/
def match_orders (m : ArrayQueueMatcher) : Nat × ArrayQueueMatcher :=
  let r := matchAttempts max_matches m 0
  if 0 < r.1 then (r.1, r.2.recalculate_best_prices) else r

/-- `ArrayQueueMatcher::get_best_prices`: returns the cached extrema. -/
def get_best_prices (m : ArrayQueueMatcher) : Option Nat × Option Nat :=
  (m.best_bid, m.best_ask)

/-- `ArrayQueueMatcher::can_match`: cached comparison guarded by
non-emptiness of both rings. -/
def can_match (m : ArrayQueueMatcher) : Bool :=
  if m.bids.isEmpty || m.asks.isEmpty then false
  else
    match m.best_bid, m.best_ask with
    | some bid, some ask => ask ≤ bid
    | _, _ => false

end ArrayQueueMatcher

/-! ## Book level (`OrderBookTrait` implementations)

`FxHashMap<SymbolId, Matcher>` is embedded as an association list from
symbol to matcher; `FxHashSet<SymbolId>` as a list of symbols. `new`
inserts one fresh matcher per symbol, so the matcher key list and the
symbol list always coincide for books built by `new`. -/

/-- `OrderBookError` from `order_book_trait.rs`. -/
inductive OrderBookError where
  | InvalidSymbol : OrderBookError
deriving DecidableEq, Repr

/-- `map.get(&k)` on an association list. -/
def alGet {α : Type} (l : List (Nat × α)) (k : Nat) : Option α :=
  match l with
  | [] => none
  | (q, v) :: rest => if q = k then some v else alGet rest k

/-- Replace the value stored at key `k` (the effect of mutating through
`map.get_mut(&k)`); keys are unique in every map this program builds. -/
def alSet {α : Type} (l : List (Nat × α)) (k : Nat) (v : α) : List (Nat × α) :=
  match l with
  | [] => []
  | (q, w) :: rest => if q = k then (q, v) :: rest else (q, w) :: alSet rest k v

/-- `HashMapOrderBook` from `hashmap_order_book.rs`. -/
structure HashMapOrderBook where
  symbols : List Nat
  matchers : List (Nat × HashMapMatcher)
deriving DecidableEq, Repr

namespace HashMapOrderBook

/-- `HashMapOrderBook::new`. -/
def new (symbols : List Nat) : HashMapOrderBook :=
  { symbols := symbols
    matchers := symbols.map (fun s => (s, HashMapMatcher.new)) }

/-- `HashMapOrderBook::add_order`: look the matcher up by the order's
symbol; absent means `Err(InvalidSymbol)`, present means delegate. -/
def add_order (b : HashMapOrderBook) (o : Order) :
    HashMapOrderBook × Except OrderBookError Bool :=
  match alGet b.matchers o.symbol with
  | some matcher =>
    ({ b with matchers := alSet b.matchers o.symbol (matcher.add_order o) },
     Except.ok true)
  | none => (b, Except.error OrderBookError.InvalidSymbol)

/-- `HashMapOrderBook::add_order_fast`. -/
def add_order_fast (b : HashMapOrderBook) (o : Order) : HashMapOrderBook × Bool :=
  match alGet b.matchers o.symbol with
  | some matcher =>
    ({ b with matchers := alSet b.matchers o.symbol (matcher.add_order o) }, true)
  | none => (b, false)

/-- `HashMapOrderBook::add_order_unchecked`: precondition that the symbol is
present (`unwrap_unchecked`); violating it is undefined behaviour in Rust,
modelled as a no-op branch that the contract makes unreachable. -/
def add_order_unchecked (b : HashMapOrderBook) (o : Order) : HashMapOrderBook :=
  match alGet b.matchers o.symbol with
  | some matcher =>
    { b with matchers := alSet b.matchers o.symbol (matcher.add_order o) }
  | none => b

/-- `HashMapOrderBook::match_orders`: one matching pass per matcher. -/
def match_orders (b : HashMapOrderBook) : HashMapOrderBook :=
  { b with matchers := b.matchers.map (fun e => (e.1, (e.2.match_orders).2)) }

/-- `HashMapOrderBook::get_best_prices`. -/
def get_best_prices (b : HashMapOrderBook) (s : Nat) :
    Option (Option Nat × Option Nat) :=
  (alGet b.matchers s).map (fun m => m.get_best_prices)

/-- `HashMapOrderBook::can_match`. -/
def can_match (b : HashMapOrderBook) (s : Nat) : Bool :=
  match alGet b.matchers s with
  | some m => m.can_match
  | none => false

/-- `HashMapOrderBook::is_valid_symbol`. -/
def is_valid_symbol (b : HashMapOrderBook) (s : Nat) : Bool :=
  b.symbols.contains s

end HashMapOrderBook

/-- `PriorityQueueOrderBook` from `priority_queue_order_book.rs`. -/
structure PriorityQueueOrderBook where
  symbols : List Nat
  matchers : List (Nat × PriorityQueueMatcher)
deriving DecidableEq, Repr

namespace PriorityQueueOrderBook

/-- `PriorityQueueOrderBook::new`. -/
def new (symbols : List Nat) : PriorityQueueOrderBook :=
  { symbols := symbols
    matchers := symbols.map (fun s => (s, PriorityQueueMatcher.new)) }

/-- `PriorityQueueOrderBook::add_order`. -/
def add_order (b : PriorityQueueOrderBook) (o : Order) :
    PriorityQueueOrderBook × Except OrderBookError Bool :=
  match alGet b.matchers o.symbol with
  | some matcher =>
    ({ b with matchers := alSet b.matchers o.symbol (matcher.add_order o) },
     Except.ok true)
  | none => (b, Except.error OrderBookError.InvalidSymbol)

/-- `PriorityQueueOrderBook::add_order_fast`. -/
def add_order_fast (b : PriorityQueueOrderBook) (o : Order) :
    PriorityQueueOrderBook × Bool :=
  match alGet b.matchers o.symbol with
  | some matcher =>
    ({ b with matchers := alSet b.matchers o.symbol (matcher.add_order o) }, true)
  | none => (b, false)

/-- `PriorityQueueOrderBook::add_order_unchecked` (same modelling of the
`unwrap_unchecked` precondition as for the HashMap book). -/
def add_order_unchecked (b : PriorityQueueOrderBook) (o : Order) :
    PriorityQueueOrderBook :=
  match alGet b.matchers o.symbol with
  | some matcher =>
    { b with matchers := alSet b.matchers o.symbol (matcher.add_order o) }
  | none => b

/-- `PriorityQueueOrderBook::match_orders`. -/
def match_orders (b : PriorityQueueOrderBook) : PriorityQueueOrderBook :=
  { b with matchers := b.matchers.map (fun e => (e.1, (e.2.match_orders).2)) }

/-- `PriorityQueueOrderBook::get_best_prices`. -/
def get_best_prices (b : PriorityQueueOrderBook) (s : Nat) :
    Option (Option Nat × Option Nat) :=
  (alGet b.matchers s).map (fun m => m.get_best_prices)

/-- `PriorityQueueOrderBook::can_match`. -/
def can_match (b : PriorityQueueOrderBook) (s : Nat) : Bool :=
  match alGet b.matchers s with
  | some m => m.can_match
  | none => false

/-- `PriorityQueueOrderBook::is_valid_symbol` (this backend checks the
matcher map, not the symbol list). -/
def is_valid_symbol (b : PriorityQueueOrderBook) (s : Nat) : Bool :=
  (alGet b.matchers s).isSome

end PriorityQueueOrderBook

/-- `ArrayQueueOrderBook` from `array_queue_order_book.rs`. -/
structure ArrayQueueOrderBook where
  symbols : List Nat
  matchers : List (Nat × ArrayQueueMatcher)
deriving DecidableEq, Repr

namespace ArrayQueueOrderBook

/-- `ArrayQueueOrderBook::new`. -/
def new (symbols : List Nat) : ArrayQueueOrderBook :=
  { symbols := symbols
    matchers := symbols.map (fun s => (s, ArrayQueueMatcher.new)) }

/-- `ArrayQueueOrderBook::add_order`: `Ok(matcher.add_order(order))` when
the symbol is present — the capacity refusal comes back as `Ok(false)`. -/
def add_order (b : ArrayQueueOrderBook) (o : Order) :
    ArrayQueueOrderBook × Except OrderBookError Bool :=
  match alGet b.matchers o.symbol with
  | some matcher =>
    let r := matcher.add_order o
    ({ b with matchers := alSet b.matchers o.symbol r.1 }, Except.ok r.2)
  | none => (b, Except.error OrderBookError.InvalidSymbol)

/-- `ArrayQueueOrderBook::add_order_fast`. -/
def add_order_fast (b : ArrayQueueOrderBook) (o : Order) :
    ArrayQueueOrderBook × Bool :=
  match alGet b.matchers o.symbol with
  | some matcher =>
    let r := matcher.add_order o
    ({ b with matchers := alSet b.matchers o.symbol r.1 }, r.2)
  | none => (b, false)

/-- `ArrayQueueOrderBook::add_order_unchecked`. -/
def add_order_unchecked (b : ArrayQueueOrderBook) (o : Order) :
    ArrayQueueOrderBook :=
  match alGet b.matchers o.symbol with
  | some matcher =>
    { b with matchers := alSet b.matchers o.symbol (matcher.add_order_unchecked o) }
  | none => b

/-- `ArrayQueueOrderBook::match_orders`. -/
def match_orders (b : ArrayQueueOrderBook) : ArrayQueueOrderBook :=
  { b with matchers := b.matchers.map (fun e => (e.1, (e.2.match_orders).2)) }

/-- `ArrayQueueOrderBook::get_best_prices`. -/
def get_best_prices (b : ArrayQueueOrderBook) (s : Nat) :
    Option (Option Nat × Option Nat) :=
  (alGet b.matchers s).map (fun m => m.get_best_prices)

/-- `ArrayQueueOrderBook::can_match`. -/
def can_match (b : ArrayQueueOrderBook) (s : Nat) : Bool :=
  match alGet b.matchers s with
  | some m => m.can_match
  | none => false

/-- `ArrayQueueOrderBook::is_valid_symbol`. -/
def is_valid_symbol (b : ArrayQueueOrderBook) (s : Nat) : Bool :=
  b.symbols.contains s

end ArrayQueueOrderBook

/-! ## Router (`src/router/order_router.rs`)

The router stores `Box<dyn OrderBookTrait>` values; the embedding is
polymorphic in the book type `β` together with the two trait methods the
router calls, mirroring dynamic dispatch. -/

/-- The slice of `OrderBookTrait` that `OrderRouter` dispatches through. -/
structure BookIface (β : Type) where
  addOrderFast : β → Order → β × Bool
  matchOrders : β → β

/-- `OrderRouter` from `order_router.rs` (the `order_book_type` tag only
feeds `get_implementation_name` and is not modelled). -/
structure OrderRouter (β : Type) where
  direct_order_books : List (Nat × β)

/-- `OrderRouter::new_direct`: one book per symbol, each built on the
singleton symbol set. -/
def OrderRouter.new_direct {β : Type} (symbols : List Nat) (mk : List Nat → β) :
    OrderRouter β :=
  { direct_order_books := symbols.map (fun s => (s, mk [s])) }

/-- `OrderRouter::route_order`: delegate to the book's fast-add path and
report `Ok(())`, discarding the fast-add boolean; an absent symbol is an
error with no state change. -/
def OrderRouter.route_order {β : Type} (iface : BookIface β)
    (r : OrderRouter β) (o : Order) : OrderRouter β × Except String Unit :=
  match alGet r.direct_order_books o.symbol with
  | some book =>
    ({ direct_order_books :=
        alSet r.direct_order_books o.symbol (iface.addOrderFast book o).1 },
     Except.ok ())
  | none => (r, Except.error "Invalid symbol")

/-- `OrderRouter::match_all_orders`. -/
def OrderRouter.match_all_orders {β : Type} (iface : BookIface β)
    (r : OrderRouter β) : OrderRouter β :=
  { direct_order_books :=
      r.direct_order_books.map (fun e => (e.1, iface.matchOrders e.2)) }

/-- The `BookIface` of the Array-Queue backend. -/
def aqIface : BookIface ArrayQueueOrderBook :=
  { addOrderFast := ArrayQueueOrderBook.add_order_fast
    matchOrders := ArrayQueueOrderBook.match_orders }

/-- The `BookIface` of the HashMap backend. -/
def hmIface : BookIface HashMapOrderBook :=
  { addOrderFast := HashMapOrderBook.add_order_fast
    matchOrders := HashMapOrderBook.match_orders }

/-- The `BookIface` of the Priority-Queue backend. -/
def pqIface : BookIface PriorityQueueOrderBook :=
  { addOrderFast := PriorityQueueOrderBook.add_order_fast
    matchOrders := PriorityQueueOrderBook.match_orders }

/-- "`x` happens before `y`": every occurrence of `y` in `l` is preceded by
an occurrence of `x` (vacuously true when `y` does not occur). Used to state
price-time-priority ordering of matched orders. -/
def beforeIn {α : Type} (x y : α) (l : List α) : Prop :=
  ∀ pre post, l = pre ++ y :: post → x ∈ pre

/-! ## Invariants and auxiliary specification definitions -/

/-- The keys of an association list. -/
def alKeys {α : Type} (l : List (Nat × α)) : List Nat := l.map (fun e => e.1)

/-- Well-formedness of a price-level map, as established by construction and
preserved by every operation of the HashMap matcher: keys strictly sorted
(`BTreeMap` order), every level non-empty with a consistent cached count,
and every order resting at its own price's level. -/
def Levels.WF (levels : Levels) : Prop :=
  List.Pairwise (fun a b => a < b) (alKeys levels) ∧
  ∀ e ∈ levels, e.2.orders ≠ [] ∧ e.2.count = e.2.orders.length ∧
    ∀ o ∈ e.2.orders, o.price = e.1

/-- The FIFO of orders resting at price `p` (empty when no such level). -/
def Levels.ordersAt (levels : Levels) (p : Nat) : List Order :=
  match Levels.get levels p with
  | some lv => lv.orders
  | none => []

/-- Within every level the identifiers increase front to back: true whenever
identifiers are assigned in arrival order, and what makes the FIFO front the
lowest-identifier order at its price. -/
def Levels.idSorted (levels : Levels) : Prop :=
  ∀ e ∈ levels, e.2.orders.Pairwise (fun a b => a.id < b.id)

/-- `p` is the maximum price occurring in `l` (and occurs). -/
def isMaxPrice (l : List Order) (p : Nat) : Prop :=
  (∃ o ∈ l, o.price = p) ∧ ∀ o ∈ l, o.price ≤ p

/-- `p` is the minimum price occurring in `l` (and occurs). -/
def isMinPrice (l : List Order) (p : Nat) : Prop :=
  (∃ o ∈ l, o.price = p) ∧ ∀ o ∈ l, p ≤ o.price

/-- The cached best-price fields agree with the heap tops. -/
def PriorityQueueMatcher.cacheInv (m : PriorityQueueMatcher) : Prop :=
  m.best_bid = (heapPeek bidCmp m.bids).map (fun o => o.price) ∧
  m.best_ask = (heapPeek askCmp m.asks).map (fun o => o.price)

/-- Coupling invariant between a HashMap matcher and a Priority-Queue
matcher holding the same resting orders: well-formed, identifier-sorted
level FIFOs, side-wise equal multisets, globally distinct identifiers, and
an exact Priority-Queue cache. -/
structure MatcherRel (hm : HashMapMatcher) (pq : PriorityQueueMatcher) : Prop where
  wfB : hm.bid_levels.WF
  wfA : hm.ask_levels.WF
  idsB : hm.bid_levels.idSorted
  idsA : hm.ask_levels.idSorted
  permB : hm.bid_levels.flat.Perm pq.bids
  permA : hm.ask_levels.flat.Perm pq.asks
  nodup : (pq.bids ++ pq.asks).Pairwise (fun a b => a.id ≠ b.id)
  cache : pq.cacheInv

/-- The cached Array-Queue extrema only claim knowledge about non-empty
rings, and the rings have positive capacity: true in every reachable state
of this program (`DEFAULT_QUEUE_SIZE = 4096`). -/
def ArrayQueueMatcher.inv (m : ArrayQueueMatcher) : Prop :=
  (m.best_bid.isSome = true → m.bids.items ≠ []) ∧
  (m.best_ask.isSome = true → m.asks.items ≠ []) ∧
  m.bids.cap ≠ 0 ∧ m.asks.cap ≠ 0 ∧
  m.bids.items.length ≤ m.bids.cap ∧ m.asks.items.length ≤ m.asks.cap

/-- One operation of the `OrderBookTrait` surface that mutates a book, used
to quantify over all states a book can reach. -/
inductive BookOp where
  | add : Order → BookOp
  | addFast : Order → BookOp
  | addUnchecked : Order → BookOp
  | matchAll : BookOp

/-- Apply one operation to a HashMap book. -/
def HashMapOrderBook.runOp (b : HashMapOrderBook) : BookOp → HashMapOrderBook
  | BookOp.add o => (b.add_order o).1
  | BookOp.addFast o => (b.add_order_fast o).1
  | BookOp.addUnchecked o => b.add_order_unchecked o
  | BookOp.matchAll => b.match_orders

/-- Apply a sequence of operations to a HashMap book. -/
def HashMapOrderBook.run (b : HashMapOrderBook) (ops : List BookOp) :
    HashMapOrderBook :=
  ops.foldl HashMapOrderBook.runOp b

/-- Apply one operation to a Priority-Queue book. -/
def PriorityQueueOrderBook.runOp (b : PriorityQueueOrderBook) :
    BookOp → PriorityQueueOrderBook
  | BookOp.add o => (b.add_order o).1
  | BookOp.addFast o => (b.add_order_fast o).1
  | BookOp.addUnchecked o => b.add_order_unchecked o
  | BookOp.matchAll => b.match_orders

/-- Apply a sequence of operations to a Priority-Queue book. -/
def PriorityQueueOrderBook.run (b : PriorityQueueOrderBook) (ops : List BookOp) :
    PriorityQueueOrderBook :=
  ops.foldl PriorityQueueOrderBook.runOp b

/-- Apply one operation to an Array-Queue book. -/
def ArrayQueueOrderBook.runOp (b : ArrayQueueOrderBook) :
    BookOp → ArrayQueueOrderBook
  | BookOp.add o => (b.add_order o).1
  | BookOp.addFast o => (b.add_order_fast o).1
  | BookOp.addUnchecked o => b.add_order_unchecked o
  | BookOp.matchAll => b.match_orders

/-- Apply a sequence of operations to an Array-Queue book. -/
def ArrayQueueOrderBook.run (b : ArrayQueueOrderBook) (ops : List BookOp) :
    ArrayQueueOrderBook :=
  ops.foldl ArrayQueueOrderBook.runOp b

/-- A concrete buy order for instantiating theorems on concrete inputs. -/
def exBuy (i p : Nat) : Order :=
  { id := i, symbol := 0, quantity := 1, price := p,
    order_type := OrderSide.Buy }

/-- A concrete sell order for instantiating theorems on concrete inputs. -/
def exSell (i p : Nat) : Order :=
  { id := i, symbol := 0, quantity := 1, price := p,
    order_type := OrderSide.Sell }

/-- An Array-Queue matcher whose bid ring is exactly full, for concrete
instantiations. -/
def aqFullBidMatcher : ArrayQueueMatcher :=
  { bids := { cap := DEFAULT_QUEUE_SIZE,
              items := List.replicate DEFAULT_QUEUE_SIZE (exBuy 9 50) }
    asks := ArrayQueue.new DEFAULT_QUEUE_SIZE
    best_bid := some 50
    best_ask := none }

/-- An Array-Queue book holding `aqFullBidMatcher` at symbol 0. -/
def aqFullBook : ArrayQueueOrderBook :=
  { symbols := [0], matchers := [(0, aqFullBidMatcher)] }

/-! ## Lemmas about association lists -/

theorem alGet_eq_none_iff {α : Type} (l : List (Nat × α)) (k : Nat) :
    alGet l k = none ↔ k ∉ alKeys l := by
  induction l with
  | nil => simp [alGet, alKeys]
  | cons hd tl ih =>
    obtain ⟨q, w⟩ := hd
    by_cases hq : q = k
    · subst hq
      simp [alGet, alKeys]
    · simp [alGet, hq, alKeys] at ih ⊢
      rw [ih]
      constructor
      · intro h
        exact ⟨fun he => hq he.symm, h⟩
      · intro h
        exact h.2

theorem alGet_mem {α : Type} {l : List (Nat × α)} {k : Nat} {v : α}
    (h : alGet l k = some v) : (k, v) ∈ l := by
  induction l with
  | nil => simp [alGet] at h
  | cons hd tl ih =>
    obtain ⟨q, w⟩ := hd
    by_cases hq : q = k
    · subst hq
      simp [alGet] at h
      subst h
      exact List.mem_cons_self _ _
    · simp [alGet, hq] at h
      exact List.mem_cons_of_mem _ (ih h)

theorem alKeys_alSet {α : Type} (l : List (Nat × α)) (k : Nat) (v : α) :
    alKeys (alSet l k v) = alKeys l := by
  induction l with
  | nil => rfl
  | cons hd tl ih =>
    obtain ⟨q, w⟩ := hd
    by_cases hq : q = k
    · simp [alSet, hq, alKeys]
    · simp [alSet, hq, alKeys] at ih ⊢
      exact ih

theorem alGet_alSet_self {α : Type} {l : List (Nat × α)} {k : Nat} {w : α}
    (h : alGet l k = some w) (v : α) : alGet (alSet l k v) k = some v := by
  induction l with
  | nil => simp [alGet] at h
  | cons hd tl ih =>
    obtain ⟨q, u⟩ := hd
    by_cases hq : q = k
    · simp [alSet, hq, alGet]
    · simp [alGet, hq] at h
      simp [alSet, hq, alGet]
      exact ih h

theorem alGet_alSet_ne {α : Type} (l : List (Nat × α)) (k : Nat) (v : α)
    {q : Nat} (h : q ≠ k) : alGet (alSet l k v) q = alGet l q := by
  induction l with
  | nil => rfl
  | cons hd tl ih =>
    obtain ⟨p, w⟩ := hd
    by_cases hp : p = k
    · subst hp
      simp only [alSet, if_true]
      simp only [alGet]
      rw [if_neg (fun he : p = q => h he.symm), if_neg (fun he : p = q => h he.symm)]
    · simp only [alSet, if_neg hp]
      by_cases hpq : p = q
      · subst hpq
        simp [alGet]
      · simp [alGet, hpq]
        exact ih

theorem alSet_self {α : Type} {l : List (Nat × α)} {k : Nat} {v : α}
    (h : alGet l k = some v) : alSet l k v = l := by
  induction l with
  | nil => rfl
  | cons hd tl ih =>
    obtain ⟨q, w⟩ := hd
    by_cases hq : q = k
    · subst hq
      simp [alGet] at h
      simp [alSet, h]
    · simp [alGet, hq] at h
      simp [alSet, hq]
      exact ih h

theorem mem_alSet {α : Type} {l : List (Nat × α)} {k : Nat} {v : α}
    {e : Nat × α} (h : e ∈ alSet l k v) : e = (k, v) ∨ e ∈ l := by
  induction l with
  | nil => simp [alSet] at h
  | cons hd tl ih =>
    obtain ⟨q, w⟩ := hd
    by_cases hq : q = k
    · subst hq
      simp [alSet] at h
      rcases h with h | h
      · exact Or.inl h
      · exact Or.inr (List.mem_cons_of_mem _ h)
    · simp [alSet, hq] at h
      rcases h with h | h
      · exact Or.inr (by simp [h])
      · rcases ih h with h1 | h1
        · exact Or.inl h1
        · exact Or.inr (List.mem_cons_of_mem _ h1)

theorem levels_get_eq_alGet (l : Levels) (p : Nat) :
    Levels.get l p = alGet l p := by
  induction l with
  | nil => rfl
  | cons hd tl ih =>
    obtain ⟨q, w⟩ := hd
    by_cases hq : q = p
    · simp [Levels.get, alGet, hq]
    · simp [Levels.get, alGet, hq]
      exact ih

/-! ## Lemmas about the price-level map -/

theorem find?_eq_head? {α : Type} (p : α → Bool) :
    ∀ (l : List α), (∀ x ∈ l, p x = true) → l.find? p = l.head?
  | [], _ => rfl
  | a :: l, h => by
    rw [List.find?_cons_of_pos l (h a (List.mem_cons_self a l))]
    rfl

theorem levels_WF_nil : Levels.WF [] := ⟨List.Pairwise.nil, by simp⟩

theorem levels_nonempty_of_WF {levels : Levels} (h : levels.WF) :
    ∀ e ∈ levels, (!e.2.isEmpty) = true := by
  intro e he
  obtain ⟨hne, hc, _⟩ := h.2 e he
  simp only [PriceLevel.isEmpty, Bool.not_eq_true', beq_eq_false_iff_ne, Ne]
  rw [hc]
  intro hlen
  exact hne (List.length_eq_zero.mp hlen)

theorem levels_get_none_of_keys_gt {levels : Levels} {p : Nat}
    (h : ∀ k ∈ alKeys levels, p < k) : Levels.get levels p = none := by
  induction levels with
  | nil => rfl
  | cons hd tl ih =>
    obtain ⟨q, w⟩ := hd
    have hq : p < q := h q (by simp [alKeys])
    simp only [Levels.get, if_neg (by omega : ¬ q = p)]
    exact ih (fun k hk => h k (by simp [alKeys] at hk ⊢; exact Or.inr hk))

theorem levels_get_cons (r : Nat) (lv : PriceLevel) (tl : Levels) (q : Nat) :
    Levels.get ((r, lv) :: tl) q = if r = q then some lv else Levels.get tl q := rfl

theorem levels_add_cons (r : Nat) (lv : PriceLevel) (tl : Levels) (p : Nat)
    (o : Order) :
    Levels.add ((r, lv) :: tl) p o =
      if p < r then (p, PriceLevel.new.push_back o) :: (r, lv) :: tl
      else if p = r then (r, lv.push_back o) :: tl
      else (r, lv) :: Levels.add tl p o := rfl

/-- Central lemma for `Levels.add` on a sorted map: the level at the
insertion price gains the order at its back, all other levels are
untouched. -/
theorem levels_get_add {levels : Levels} {p : Nat} (o : Order) (q : Nat)
    (hs : List.Pairwise (fun a b => a < b) (alKeys levels)) :
    Levels.get (levels.add p o) q =
      if q = p then some ((match Levels.get levels p with
                           | some lv => lv
                           | none => PriceLevel.new).push_back o)
      else Levels.get levels q := by
  induction levels with
  | nil =>
    show Levels.get [(p, PriceLevel.new.push_back o)] q = _
    rw [levels_get_cons]
    by_cases hq : q = p
    · subst hq
      rw [if_pos rfl, if_pos rfl]
      rfl
    · rw [if_neg (fun he : p = q => hq he.symm), if_neg hq]
  | cons hd tl ih =>
    obtain ⟨r, lv⟩ := hd
    have hs' : List.Pairwise (fun a b => a < b) (alKeys tl) := by
      simp only [alKeys, List.map_cons, List.pairwise_cons] at hs
      exact hs.2
    have hrk : ∀ k ∈ alKeys tl, r < k := by
      simp only [alKeys, List.map_cons, List.pairwise_cons] at hs
      exact hs.1
    rw [levels_add_cons]
    by_cases h1 : p < r
    · rw [if_pos h1]
      have hget : Levels.get ((r, lv) :: tl) p = none := by
        apply levels_get_none_of_keys_gt
        intro k hk
        simp only [alKeys, List.map_cons, List.mem_cons] at hk
        rcases hk with hk | hk
        · omega
        · have := hrk k hk
          omega
      by_cases hq : q = p
      · subst hq
        rw [levels_get_cons, if_pos rfl, if_pos rfl, hget]
      · rw [levels_get_cons, if_neg (fun he : p = q => hq he.symm), if_neg hq]
    · by_cases h2 : p = r
      · subst h2
        rw [if_neg h1, if_pos rfl]
        by_cases hq : q = p
        · subst hq
          rw [levels_get_cons, if_pos rfl, if_pos rfl, levels_get_cons, if_pos rfl]
        · rw [levels_get_cons, if_neg (fun he : p = q => hq he.symm), if_neg hq,
            levels_get_cons, if_neg (fun he : p = q => hq he.symm)]
      · have h3 : r < p := by omega
        rw [if_neg h1, if_neg h2]
        by_cases hq : q = r
        · subst hq
          have hqp : ¬ q = p := by omega
          rw [levels_get_cons, if_pos rfl, if_neg hqp, levels_get_cons, if_pos rfl]
        · rw [levels_get_cons r lv (Levels.add tl p o) q,
            if_neg (fun he : r = q => hq he.symm), ih hs',
            levels_get_cons r lv tl p, if_neg (fun he : r = p => h2 he.symm),
            levels_get_cons r lv tl q, if_neg (fun he : r = q => hq he.symm)]

theorem alKeys_add_subset {levels : Levels} {p : Nat} {o : Order} {k : Nat}
    (h : k ∈ alKeys (levels.add p o)) : k = p ∨ k ∈ alKeys levels := by
  induction levels with
  | nil => simp [Levels.add, alKeys] at h; exact Or.inl h
  | cons hd tl ih =>
    obtain ⟨r, lv⟩ := hd
    rw [levels_add_cons] at h
    by_cases h1 : p < r
    · rw [if_pos h1] at h
      simp only [alKeys, List.map_cons, List.mem_cons] at h ⊢
      rcases h with h | h | h
      · exact Or.inl h
      · exact Or.inr (Or.inl h)
      · exact Or.inr (Or.inr h)
    · by_cases h2 : p = r
      · subst h2
        rw [if_neg h1, if_pos rfl] at h
        simp only [alKeys, List.map_cons, List.mem_cons] at h ⊢
        rcases h with h | h
        · exact Or.inr (Or.inl h)
        · exact Or.inr (Or.inr h)
      · rw [if_neg h1, if_neg h2] at h
        simp only [alKeys, List.map_cons, List.mem_cons] at h ⊢
        rcases h with h | h
        · exact Or.inr (Or.inl h)
        · rcases ih h with h | h
          · exact Or.inl h
          · exact Or.inr (Or.inr h)

theorem levels_WF_add {levels : Levels} (o : Order) (h : levels.WF) :
    (levels.add o.price o).WF := by
  induction levels with
  | nil =>
    constructor
    · simp [Levels.add, alKeys]
    · intro e he
      simp [Levels.add] at he
      subst he
      refine ⟨by simp [PriceLevel.push_back, PriceLevel.new], ?_, ?_⟩
      · simp [PriceLevel.push_back, PriceLevel.new]
      · intro x hx
        simp [PriceLevel.push_back, PriceLevel.new] at hx
        subst hx
        rfl
  | cons hd tl ih =>
    obtain ⟨r, lv⟩ := hd
    obtain ⟨hk, he⟩ := h
    have hk' : List.Pairwise (fun a b => a < b) (alKeys tl) := by
      simp only [alKeys, List.map_cons, List.pairwise_cons] at hk
      exact hk.2
    have hrk : ∀ k ∈ alKeys tl, r < k := by
      simp only [alKeys, List.map_cons, List.pairwise_cons] at hk
      exact hk.1
    have htl : Levels.WF tl := ⟨hk', fun e hee => he e (List.mem_cons_of_mem _ hee)⟩
    by_cases h1 : o.price < r
    · constructor
      · simp only [Levels.add, if_pos h1, alKeys, List.map_cons, List.pairwise_cons]
        simp only [alKeys, List.map_cons, List.pairwise_cons] at hk
        refine ⟨?_, hk⟩
        intro k hkk
        rcases List.mem_cons.mp hkk with hkk | hkk
        · omega
        · have := hrk k hkk
          omega
      · intro e hee
        rw [levels_add_cons, if_pos h1] at hee
        rcases List.mem_cons.mp hee with hee | hee
        · subst hee
          refine ⟨by simp [PriceLevel.push_back, PriceLevel.new], by simp [PriceLevel.push_back, PriceLevel.new], ?_⟩
          intro x hx
          simp [PriceLevel.push_back, PriceLevel.new] at hx
          subst hx
          rfl
        · exact he e hee
    · by_cases h2 : o.price = r
      · constructor
        · rw [levels_add_cons, if_neg h1, if_pos h2]
          simpa [alKeys] using hk
        · intro e hee
          rw [levels_add_cons, if_neg h1, if_pos h2] at hee
          rcases List.mem_cons.mp hee with hee | hee
          · subst hee
            obtain ⟨hne, hc, hp⟩ := he (r, lv) (List.mem_cons_self _ _)
            refine ⟨by simp [PriceLevel.push_back], ?_, ?_⟩
            · show lv.count + 1 = (lv.orders ++ [o]).length
              have hc' : lv.count = lv.orders.length := hc
              simp [hc']
            · intro x hx
              simp only [PriceLevel.push_back, List.mem_append,
                List.mem_singleton] at hx
              rcases hx with hx | hx
              · exact hp x hx
              · subst hx
                exact h2
          · exact he e (List.mem_cons_of_mem _ hee)
      · have ih' := ih htl
        constructor
        · rw [levels_add_cons, if_neg h1, if_neg h2]
          simp only [alKeys, List.map_cons, List.pairwise_cons]
          constructor
          · intro k hkk
            rcases alKeys_add_subset hkk with hkk | hkk
            · omega
            · exact hrk k hkk
          · exact ih'.1
        · intro e hee
          rw [levels_add_cons, if_neg h1, if_neg h2] at hee
          rcases List.mem_cons.mp hee with hee | hee
          · subst hee
            exact he (r, lv) (List.mem_cons_self _ _)
          · exact ih'.2 e hee

theorem levels_ordersAt_add {levels : Levels} (o : Order) (q : Nat)
    (hs : List.Pairwise (fun a b => a < b) (alKeys levels)) :
    (levels.add o.price o).ordersAt q =
      if q = o.price then levels.ordersAt q ++ [o] else levels.ordersAt q := by
  unfold Levels.ordersAt
  rw [levels_get_add o q hs]
  by_cases hq : q = o.price
  · subst hq
    rw [if_pos rfl, if_pos rfl]
    cases hg : Levels.get levels o.price with
    | none => simp [PriceLevel.push_back, PriceLevel.new]
    | some lv => simp [PriceLevel.push_back]
  · rw [if_neg hq, if_neg hq]

theorem levels_flat_add_perm :
    ∀ (levels : Levels) (p : Nat) (o : Order),
      ((levels.add p o).flat).Perm (o :: levels.flat)
  | [], p, o => by simp [Levels.add, Levels.flat, PriceLevel.push_back, PriceLevel.new]
  | (q, lv) :: tl, p, o => by
    by_cases h1 : p < q
    · simp only [Levels.add, if_pos h1, Levels.flat, List.flatMap_cons]
      simp [PriceLevel.push_back, PriceLevel.new]
    · by_cases h2 : p = q
      · simp only [Levels.add, if_neg h1, if_pos h2, Levels.flat, List.flatMap_cons]
        simp only [PriceLevel.push_back]
        have h3 : (lv.orders ++ [o]).Perm (o :: lv.orders) :=
          List.perm_append_singleton o lv.orders
        exact h3.append_right (tl.flatMap (fun e => e.2.orders))
      · simp only [Levels.add, if_neg h1, if_neg h2, Levels.flat, List.flatMap_cons]
        have ih := levels_flat_add_perm tl p o
        exact (ih.append_left lv.orders).trans List.perm_middle

/-! ## Lemmas about the best-price walks -/

theorem hm_best_bid_eq (m : HashMapMatcher) (hw : m.bid_levels.WF) :
    m.get_best_bid = (m.bid_levels.getLast?).map (fun e => e.1) := by
  unfold HashMapMatcher.get_best_bid
  rw [find?_eq_head? _ _ (fun x hx =>
    levels_nonempty_of_WF hw x (List.mem_reverse.mp hx))]
  rw [List.head?_reverse]

theorem hm_best_ask_eq (m : HashMapMatcher) (hw : m.ask_levels.WF) :
    m.get_best_ask = (m.ask_levels.head?).map (fun e => e.1) := by
  unfold HashMapMatcher.get_best_ask
  rw [find?_eq_head? _ _ (fun x hx => levels_nonempty_of_WF hw x hx)]

theorem levels_getLast_key_max :
    ∀ {levels : Levels}, List.Pairwise (fun a b => a < b) (alKeys levels) →
      ∀ {e : Nat × PriceLevel}, levels.getLast? = some e →
      ∀ f ∈ levels, f.1 ≤ e.1 := by
  intro levels
  induction levels with
  | nil => intro _ e he; exact absurd he (by simp)
  | cons hd tl ih =>
    intro hs e he f hf
    cases htl : tl with
    | nil =>
      subst htl
      simp at he hf
      subst he; subst hf
      exact Nat.le_refl _
    | cons hd2 tl2 =>
      subst htl
      rw [List.getLast?_cons_cons] at he
      have hs' : List.Pairwise (fun a b => a < b) (alKeys (hd2 :: tl2)) := by
        simp only [alKeys, List.map_cons, List.pairwise_cons] at hs ⊢
        exact hs.2
      rcases List.mem_cons.mp hf with hf | hf
      · subst hf
        have hmem := List.mem_of_getLast?_eq_some he
        have : f.1 < e.1 := by
          simp only [alKeys, List.map_cons, List.pairwise_cons] at hs
          exact hs.1 e.1 (by
            simp only [List.mem_cons, List.mem_map]
            rcases List.mem_cons.mp hmem with hm | hm
            · exact Or.inl (by rw [hm])
            · exact Or.inr ⟨e, hm, rfl⟩)
        omega
      · exact ih hs' he f hf

theorem levels_head_key_min :
    ∀ {levels : Levels}, List.Pairwise (fun a b => a < b) (alKeys levels) →
      ∀ {e : Nat × PriceLevel}, levels.head? = some e →
      ∀ f ∈ levels, e.1 ≤ f.1 := by
  intro levels hs e he f hf
  cases levels with
  | nil => exact absurd he (by simp)
  | cons hd tl =>
    simp only [List.head?_cons, Option.some.injEq] at he
    subst he
    rcases List.mem_cons.mp hf with hf | hf
    · subst hf; exact Nat.le_refl _
    · simp only [alKeys, List.map_cons, List.pairwise_cons] at hs
      have := hs.1 f.1 (List.mem_map.mpr ⟨f, hf, rfl⟩)
      omega

theorem levels_get_of_mem {levels : Levels}
    (hs : List.Pairwise (fun a b => a < b) (alKeys levels))
    {e : Nat × PriceLevel} (he : e ∈ levels) :
    Levels.get levels e.1 = some e.2 := by
  induction levels with
  | nil => exact absurd he (by simp)
  | cons hd tl ih =>
    obtain ⟨q, w⟩ := hd
    rcases List.mem_cons.mp he with he | he
    · subst he
      simp [Levels.get]
    · have hs' : List.Pairwise (fun a b => a < b) (alKeys tl) := by
        simp only [alKeys, List.map_cons, List.pairwise_cons] at hs
        exact hs.2
      have hne : ¬ q = e.1 := by
        simp only [alKeys, List.map_cons, List.pairwise_cons] at hs
        have := hs.1 e.1 (List.mem_map.mpr ⟨e, he, rfl⟩)
        omega
      simp only [Levels.get, if_neg hne]
      exact ih hs' he

theorem levels_mem_flat {levels : Levels} {x : Order} :
    x ∈ levels.flat ↔ ∃ e ∈ levels, x ∈ e.2.orders := by
  simp [Levels.flat, List.mem_flatMap]

/-- A `some` best bid is the maximum price among resting bid orders, and
its level exists. -/
theorem hm_best_bid_spec {m : HashMapMatcher} (hw : m.bid_levels.WF)
    {bp : Nat} (hb : m.get_best_bid = some bp) :
    isMaxPrice m.bid_levels.flat bp ∧
    ∃ lv, Levels.get m.bid_levels bp = some lv := by
  rw [hm_best_bid_eq m hw] at hb
  rw [Option.map_eq_some'] at hb
  obtain ⟨e, he, hep⟩ := hb
  subst hep
  have hmem := List.mem_of_getLast?_eq_some he
  obtain ⟨hne, _, hp⟩ := hw.2 e hmem
  constructor
  · constructor
    · obtain ⟨o, ho⟩ := List.exists_mem_of_ne_nil _ hne
      exact ⟨o, levels_mem_flat.mpr ⟨e, hmem, ho⟩, hp o ho⟩
    · intro o ho
      obtain ⟨f, hf, hof⟩ := levels_mem_flat.mp ho
      obtain ⟨_, _, hpf⟩ := hw.2 f hf
      rw [hpf o hof]
      exact levels_getLast_key_max hw.1 he f hf
  · exact ⟨e.2, by
      have := levels_get_of_mem hw.1 hmem
      exact this⟩

/-- A `some` best ask is the minimum price among resting ask orders, and
its level exists. -/
theorem hm_best_ask_spec {m : HashMapMatcher} (hw : m.ask_levels.WF)
    {ap : Nat} (ha : m.get_best_ask = some ap) :
    isMinPrice m.ask_levels.flat ap ∧
    ∃ lv, Levels.get m.ask_levels ap = some lv := by
  rw [hm_best_ask_eq m hw] at ha
  rw [Option.map_eq_some'] at ha
  obtain ⟨e, he, hep⟩ := ha
  subst hep
  have hmem := List.mem_of_mem_head? he
  obtain ⟨hne, _, hp⟩ := hw.2 e hmem
  constructor
  · constructor
    · obtain ⟨o, ho⟩ := List.exists_mem_of_ne_nil _ hne
      exact ⟨o, levels_mem_flat.mpr ⟨e, hmem, ho⟩, hp o ho⟩
    · intro o ho
      obtain ⟨f, hf, hof⟩ := levels_mem_flat.mp ho
      obtain ⟨_, _, hpf⟩ := hw.2 f hf
      rw [hpf o hof]
      exact levels_head_key_min hw.1 he f hf
  · exact ⟨e.2, by
      have := levels_get_of_mem hw.1 hmem
      exact this⟩

theorem hm_best_bid_none_iff {m : HashMapMatcher} (hw : m.bid_levels.WF) :
    m.get_best_bid = none ↔ m.bid_levels = [] := by
  rw [hm_best_bid_eq m hw]
  rw [Option.map_eq_none']
  exact List.getLast?_eq_none_iff

theorem hm_best_ask_none_iff {m : HashMapMatcher} (hw : m.ask_levels.WF) :
    m.get_best_ask = none ↔ m.ask_levels = [] := by
  rw [hm_best_ask_eq m hw]
  rw [Option.map_eq_none']
  exact List.head?_eq_none_iff

/-! ## Lemmas about popping the front of a price level -/

theorem alSet_cons {α : Type} (q : Nat) (w : α) (tl : List (Nat × α)) (k : Nat)
    (v : α) :
    alSet ((q, w) :: tl) k v =
      if q = k then (q, v) :: tl else (q, w) :: alSet tl k v := rfl

theorem levels_popAt_cons (q : Nat) (w : PriceLevel) (tl : Levels) (p : Nat) :
    Levels.popAt ((q, w) :: tl) p =
      if q = p then
        match w.pop_front with
        | some (o, lv') => (some o, (q, lv') :: tl)
        | none => (none, (q, w) :: tl)
      else ((Levels.popAt tl p).1, (q, w) :: (Levels.popAt tl p).2) := rfl

theorem pop_front_eq {lv : PriceLevel} {b : Order} {rest : List Order}
    (ho : lv.orders = b :: rest) :
    lv.pop_front = some (b, { orders := rest, count := lv.count - 1,
                              total_quantity := lv.total_quantity - b.quantity }) := by
  unfold PriceLevel.pop_front
  rw [ho]

theorem levels_get_alSet_self {l : Levels} {k : Nat} {w : PriceLevel}
    (h : Levels.get l k = some w) (v : PriceLevel) :
    Levels.get (alSet l k v) k = some v := by
  rw [levels_get_eq_alGet] at h ⊢
  exact alGet_alSet_self h v

theorem levels_get_alSet_ne {l : Levels} (k : Nat) (v : PriceLevel) {q : Nat}
    (h : q ≠ k) : Levels.get (alSet l k v) q = Levels.get l q := by
  rw [levels_get_eq_alGet, levels_get_eq_alGet]
  exact alGet_alSet_ne l k v h

theorem levels_popAt_eq {levels : Levels} {p : Nat} {lv : PriceLevel}
    {b : Order} {rest : List Order} (hg : Levels.get levels p = some lv)
    (ho : lv.orders = b :: rest) :
    Levels.popAt levels p =
      (some b, alSet levels p
        { orders := rest, count := lv.count - 1,
          total_quantity := lv.total_quantity - b.quantity }) := by
  induction levels with
  | nil => exact absurd hg (by simp [Levels.get])
  | cons hd tl ih =>
    obtain ⟨q, w⟩ := hd
    by_cases hq : q = p
    · subst hq
      rw [levels_get_cons, if_pos rfl] at hg
      have hw : w = lv := by injection hg
      subst hw
      rw [levels_popAt_cons, if_pos rfl, pop_front_eq ho, alSet_cons, if_pos rfl]
    · rw [levels_get_cons, if_neg hq] at hg
      rw [levels_popAt_cons, if_neg hq, ih hg, alSet_cons, if_neg hq]

theorem levels_remove_cons (q : Nat) (w : PriceLevel) (tl : Levels) (p : Nat) :
    Levels.remove ((q, w) :: tl) p =
      if q = p then tl else (q, w) :: Levels.remove tl p := rfl

theorem levels_remove_sublist : ∀ (l : Levels) (p : Nat),
    (Levels.remove l p).Sublist l
  | [], _ => List.Sublist.refl []
  | (q, w) :: tl, p => by
    rw [levels_remove_cons]
    by_cases hq : q = p
    · rw [if_pos hq]
      exact List.sublist_cons_self _ _
    · rw [if_neg hq]
      exact (levels_remove_sublist tl p).cons₂ _

theorem levels_get_remove_ne : ∀ (l : Levels) (p : Nat) {q : Nat}, q ≠ p →
    Levels.get (Levels.remove l p) q = Levels.get l q
  | [], _, _, _ => rfl
  | (r, w) :: tl, p, q, hq => by
    rw [levels_remove_cons]
    by_cases hr : r = p
    · subst hr
      rw [if_pos rfl, levels_get_cons, if_neg (fun he : r = q => hq he.symm)]
    · rw [if_neg hr, levels_get_cons, levels_get_cons]
      by_cases hrq : r = q
      · rw [if_pos hrq, if_pos hrq]
      · rw [if_neg hrq, if_neg hrq]
        exact levels_get_remove_ne tl p hq

theorem levels_get_remove_self : ∀ {l : Levels} {p : Nat},
    List.Pairwise (fun a b => a < b) (alKeys l) →
    Levels.get (Levels.remove l p) p = none
  | [], p, _ => rfl
  | (r, w) :: tl, p, hs => by
    have hs' : List.Pairwise (fun a b => a < b) (alKeys tl) := by
      simp only [alKeys, List.map_cons, List.pairwise_cons] at hs
      exact hs.2
    rw [levels_remove_cons]
    by_cases hr : r = p
    · subst hr
      rw [if_pos rfl]
      apply levels_get_none_of_keys_gt
      intro k hk
      simp only [alKeys, List.map_cons, List.pairwise_cons] at hs
      exact hs.1 k hk
    · rw [if_neg hr, levels_get_cons, if_neg hr]
      exact levels_get_remove_self hs'

theorem levels_flat_remove_of_nil : ∀ {l : Levels} {p : Nat} {lv : PriceLevel},
    Levels.get l p = some lv → lv.orders = [] →
    (Levels.remove l p).flat = l.flat
  | [], p, lv, hg, _ => by simp [Levels.get] at hg
  | (r, w) :: tl, p, lv, hg, ho => by
    rw [levels_remove_cons]
    by_cases hr : r = p
    · subst hr
      rw [levels_get_cons, if_pos rfl] at hg
      have hw : w = lv := by injection hg
      subst hw
      simp [Levels.flat, ho]
    · rw [levels_get_cons, if_neg hr] at hg
      rw [if_neg hr]
      simp only [Levels.flat, List.flatMap_cons]
      rw [show (Levels.remove tl p).flatMap (fun e => e.2.orders) =
        (Levels.remove tl p).flat from rfl]
      rw [levels_flat_remove_of_nil hg ho]
      rfl

theorem levels_remove_alSet : ∀ (l : Levels) (k : Nat) (v : PriceLevel),
    Levels.remove (alSet l k v) k = Levels.remove l k
  | [], _, _ => rfl
  | (r, w) :: tl, k, v => by
    rw [alSet_cons]
    by_cases hr : r = k
    · rw [if_pos hr, levels_remove_cons, if_pos hr, levels_remove_cons, if_pos hr]
    · rw [if_neg hr, levels_remove_cons, if_neg hr, levels_remove_cons, if_neg hr,
        levels_remove_alSet tl k v]

theorem levels_removeIfEmpty_of_ne_nil {l : Levels} {p : Nat} {lv : PriceLevel}
    (hg : Levels.get l p = some lv) (hc : lv.count = lv.orders.length)
    (hne : lv.orders ≠ []) : l.removeIfEmpty p = l := by
  unfold Levels.removeIfEmpty
  rw [hg]
  have h1 : lv.isEmpty = false := by
    simp only [PriceLevel.isEmpty, beq_eq_false_iff_ne, Ne, hc]
    intro hlen
    exact hne (List.length_eq_zero.mp hlen)
  show (if lv.isEmpty = true then Levels.remove l p else l) = l
  rw [h1]
  simp

theorem levels_removeIfEmpty_of_nil {l : Levels} {p : Nat} {lv : PriceLevel}
    (hg : Levels.get l p = some lv) (hc : lv.count = lv.orders.length)
    (hnil : lv.orders = []) : l.removeIfEmpty p = Levels.remove l p := by
  unfold Levels.removeIfEmpty
  rw [hg]
  have h1 : lv.isEmpty = true := by
    simp only [PriceLevel.isEmpty, beq_iff_eq, hc, hnil, List.length_nil]
  show (if lv.isEmpty = true then Levels.remove l p else l) = Levels.remove l p
  rw [h1]
  simp

theorem levels_flat_alSet_pop :
    ∀ {levels : Levels} {p : Nat} {lv : PriceLevel} {b : Order}
      {rest : List Order} {lv' : PriceLevel},
      Levels.get levels p = some lv → lv.orders = b :: rest →
      lv'.orders = rest →
      (b :: Levels.flat (alSet levels p lv')).Perm levels.flat
  | [], p, lv, b, rest, lv', hg, _, _ => by simp [Levels.get] at hg
  | (q, w) :: tl, p, lv, b, rest, lv', hg, ho, ho' => by
    rw [alSet_cons]
    by_cases hq : q = p
    · subst hq
      rw [levels_get_cons, if_pos rfl] at hg
      have hw : w = lv := by injection hg
      subst hw
      rw [if_pos rfl]
      simp only [Levels.flat, List.flatMap_cons, ho, ho']
      exact List.Perm.refl _
    · rw [levels_get_cons, if_neg hq] at hg
      rw [if_neg hq]
      simp only [Levels.flat, List.flatMap_cons]
      have ih := @levels_flat_alSet_pop tl p lv b rest lv' hg ho ho'
      exact (List.perm_middle.symm.trans (ih.append_left w.orders)).symm.symm.trans
        (List.Perm.refl _) |>.symm.symm

/-- Pop the front order of the level at `p` and clean the level up if it
emptied, as one `match_orders` iteration does on one side: all the facts
the loop proofs need. -/
theorem levels_pop_cleanup {levels : Levels} {p : Nat} {lv : PriceLevel}
    (hw : levels.WF) (hg : Levels.get levels p = some lv) :
    ∃ b rest, lv.orders = b :: rest ∧
      (Levels.popAt levels p).1 = some b ∧
      b.price = p ∧
      ((Levels.popAt levels p).2.removeIfEmpty p).WF ∧
      (b :: ((Levels.popAt levels p).2.removeIfEmpty p).flat).Perm levels.flat ∧
      Levels.ordersAt ((Levels.popAt levels p).2.removeIfEmpty p) p = rest ∧
      (∀ q, q ≠ p →
        Levels.get ((Levels.popAt levels p).2.removeIfEmpty p) q =
          Levels.get levels q) ∧
      (levels.idSorted → ((Levels.popAt levels p).2.removeIfEmpty p).idSorted ∧
        rest.Pairwise (fun a c => a.id < c.id) ∧
        ∀ x ∈ rest, b.id < x.id) := by
  obtain ⟨hne, hc, hp⟩ := hw.2 (p, lv) (alGet_mem (by rw [← levels_get_eq_alGet]; exact hg))
  obtain ⟨b, rest, ho⟩ := List.exists_cons_of_ne_nil hne
  have hpop := levels_popAt_eq hg ho
  set lv' : PriceLevel :=
    { orders := rest, count := lv.count - 1,
      total_quantity := lv.total_quantity - b.quantity } with hlv'
  have hc' : lv'.count = lv'.orders.length := by
    have hcc : lv.count = lv.orders.length := hc
    have hoo : lv.orders = b :: rest := ho
    rw [hoo, List.length_cons] at hcc
    show lv.count - 1 = rest.length
    omega
  have hgset : Levels.get (alSet levels p lv') p = some lv' :=
    levels_get_alSet_self hg lv'
  have hbp : b.price = p := hp b (by rw [ho]; exact List.mem_cons_self _ _)
  refine ⟨b, rest, ho, by rw [hpop], hbp, ?_⟩
  by_cases hrest : rest = []
  · -- the level emptied: it is removed from the map
    have hclean : (Levels.popAt levels p).2.removeIfEmpty p =
        Levels.remove levels p := by
      rw [hpop]
      show Levels.removeIfEmpty (alSet levels p lv') p = _
      rw [levels_removeIfEmpty_of_nil hgset hc' hrest,
        levels_remove_alSet]
    rw [hclean]
    have hwrem : (Levels.remove levels p).WF := by
      constructor
      · exact hw.1.sublist ((levels_remove_sublist levels p).map _)
      · intro e he
        exact hw.2 e ((levels_remove_sublist levels p).mem he)
    refine ⟨hwrem, ?_, ?_, ?_, ?_⟩
    · have h1 : Levels.flat (Levels.remove (alSet levels p lv') p) =
          Levels.flat (alSet levels p lv') :=
        levels_flat_remove_of_nil hgset (by rw [hlv']; exact hrest)
      rw [← levels_remove_alSet levels p lv', h1]
      exact @levels_flat_alSet_pop levels p lv b rest lv' hg ho rfl
    · unfold Levels.ordersAt
      rw [levels_get_remove_self hw.1, hrest]
    · intro q hq
      exact levels_get_remove_ne levels p hq
    · intro hid
      refine ⟨?_, ?_, ?_⟩
      · intro e he
        exact hid e ((levels_remove_sublist levels p).mem he)
      · rw [hrest]; exact List.Pairwise.nil
      · rw [hrest]; intro x hx; exact absurd hx (by simp)
  · -- the level still holds orders: nothing is removed
    have hclean : (Levels.popAt levels p).2.removeIfEmpty p =
        alSet levels p lv' := by
      rw [hpop]
      show Levels.removeIfEmpty (alSet levels p lv') p = _
      rw [levels_removeIfEmpty_of_ne_nil hgset hc' hrest]
    rw [hclean]
    have hwset : Levels.WF (alSet levels p lv') := by
      constructor
      · have := alKeys_alSet levels p lv'
        rw [show alKeys (alSet levels p lv') = alKeys levels from this]
        exact hw.1
      · intro e he
        rcases mem_alSet he with he | he
        · subst he
          refine ⟨hrest, hc', ?_⟩
          intro x hx
          exact hp x (by rw [ho]; exact List.mem_cons_of_mem _ hx)
        · exact hw.2 e he
    refine ⟨hwset, ?_, ?_, ?_, ?_⟩
    · exact @levels_flat_alSet_pop levels p lv b rest lv' hg ho rfl
    · unfold Levels.ordersAt
      rw [hgset]
    · intro q hq
      exact levels_get_alSet_ne p lv' hq
    · intro hid
      have hlvp : lv.orders.Pairwise (fun a c => a.id < c.id) :=
        hid (p, lv) (alGet_mem (by rw [← levels_get_eq_alGet]; exact hg))
      rw [ho] at hlvp
      rw [List.pairwise_cons] at hlvp
      refine ⟨?_, hlvp.2, hlvp.1⟩
      intro e he
      rcases mem_alSet he with he | he
      · subst he
        exact hlvp.2
      · exact hid e he

/-! ## Lemmas about the heap comparators -/

theorem bidCmp_lt_iff (x y : Order) :
    bidCmp x y = Ordering.lt ↔
      x.price < y.price ∨ (x.price = y.price ∧ y.id < x.id) := by
  unfold bidCmp
  rcases h : compare x.price y.price with _ | _ | _
  · simp only [Nat.compare_eq_lt] at h
    simp [h, Nat.ne_of_lt h]
  · simp only [Nat.compare_eq_eq] at h
    simp [h, Nat.compare_eq_lt]
  · simp only [Nat.compare_eq_gt] at h
    constructor
    · intro hc; exact absurd hc (by simp)
    · rintro (h1 | ⟨h1, _⟩) <;> omega

theorem bidCmp_eq_iff (x y : Order) :
    bidCmp x y = Ordering.eq ↔ x.price = y.price ∧ x.id = y.id := by
  unfold bidCmp
  rcases h : compare x.price y.price with _ | _ | _
  · simp only [Nat.compare_eq_lt] at h
    constructor
    · intro hc; exact absurd hc (by simp)
    · rintro ⟨h1, _⟩; omega
  · simp only [Nat.compare_eq_eq] at h
    simp [h, Nat.compare_eq_eq]
    omega
  · simp only [Nat.compare_eq_gt] at h
    constructor
    · intro hc; exact absurd hc (by simp)
    · rintro ⟨h1, _⟩; omega

theorem askCmp_lt_iff (x y : Order) :
    askCmp x y = Ordering.lt ↔
      y.price < x.price ∨ (x.price = y.price ∧ y.id < x.id) := by
  unfold askCmp
  rcases h : compare y.price x.price with _ | _ | _
  · simp only [Nat.compare_eq_lt] at h
    simp [h, Nat.ne_of_gt h]
  · simp only [Nat.compare_eq_eq] at h
    simp [h.symm, Nat.compare_eq_lt]
  · simp only [Nat.compare_eq_gt] at h
    constructor
    · intro hc; exact absurd hc (by simp)
    · rintro (h1 | ⟨h1, _⟩) <;> omega

theorem askCmp_eq_iff (x y : Order) :
    askCmp x y = Ordering.eq ↔ x.price = y.price ∧ x.id = y.id := by
  unfold askCmp
  rcases h : compare y.price x.price with _ | _ | _
  · simp only [Nat.compare_eq_lt] at h
    constructor
    · intro hc; exact absurd hc (by simp)
    · rintro ⟨h1, _⟩; omega
  · simp only [Nat.compare_eq_eq] at h
    simp [h.symm, Nat.compare_eq_eq]
    omega
  · simp only [Nat.compare_eq_gt] at h
    constructor
    · intro hc; exact absurd hc (by simp)
    · rintro ⟨h1, _⟩; omega

theorem bidCmp_refl_not_lt (a : Order) : bidCmp a a ≠ Ordering.lt := by
  rw [Ne, bidCmp_lt_iff]; omega

theorem askCmp_refl_not_lt (a : Order) : askCmp a a ≠ Ordering.lt := by
  rw [Ne, askCmp_lt_iff]; omega

theorem bidCmp_not_lt_trans {a b c : Order} (h1 : bidCmp a b ≠ Ordering.lt)
    (h2 : bidCmp b c ≠ Ordering.lt) : bidCmp a c ≠ Ordering.lt := by
  rw [Ne, bidCmp_lt_iff] at h1 h2 ⊢
  omega

theorem askCmp_not_lt_trans {a b c : Order} (h1 : askCmp a b ≠ Ordering.lt)
    (h2 : askCmp b c ≠ Ordering.lt) : askCmp a c ≠ Ordering.lt := by
  rw [Ne, askCmp_lt_iff] at h1 h2 ⊢
  omega

theorem bidCmp_asymm {a b : Order} (h : bidCmp a b = Ordering.lt) :
    bidCmp b a ≠ Ordering.lt := by
  rw [bidCmp_lt_iff] at h
  rw [Ne, bidCmp_lt_iff]
  omega

theorem askCmp_asymm {a b : Order} (h : askCmp a b = Ordering.lt) :
    askCmp b a ≠ Ordering.lt := by
  rw [askCmp_lt_iff] at h
  rw [Ne, askCmp_lt_iff]
  omega

/-- The three-way comparison is exhaustive: not `lt` in either direction
means `eq`. -/
theorem bidCmp_eq_of_not_lt {a b : Order} (h1 : bidCmp a b ≠ Ordering.lt)
    (h2 : bidCmp b a ≠ Ordering.lt) : bidCmp a b = Ordering.eq := by
  rw [Ne, bidCmp_lt_iff] at h1 h2
  rw [bidCmp_eq_iff]
  omega

theorem askCmp_eq_of_not_lt {a b : Order} (h1 : askCmp a b ≠ Ordering.lt)
    (h2 : askCmp b a ≠ Ordering.lt) : askCmp a b = Ordering.eq := by
  rw [Ne, askCmp_lt_iff] at h1 h2
  rw [askCmp_eq_iff]
  omega

/-! ## Lemmas about the heap model -/

theorem heapPop_nil (cmp : Order → Order → Ordering) : heapPop cmp [] = none := rfl

theorem heapPop_cons_none {cmp : Order → Order → Ordering} {tl : List Order}
    (h : heapPop cmp tl = none) (o : Order) :
    heapPop cmp (o :: tl) = some (o, []) := by
  unfold heapPop
  rw [h]

theorem heapPop_cons_lt {cmp : Order → Order → Ordering} {tl : List Order}
    {m : Order} {rest' : List Order} (h : heapPop cmp tl = some (m, rest'))
    {o : Order} (hlt : cmp o m = Ordering.lt) :
    heapPop cmp (o :: tl) = some (m, o :: rest') := by
  unfold heapPop
  rw [h]
  simp [hlt]

theorem heapPop_cons_ge {cmp : Order → Order → Ordering} {tl : List Order}
    {m : Order} {rest' : List Order} (h : heapPop cmp tl = some (m, rest'))
    {o : Order} (hlt : ¬ cmp o m = Ordering.lt) :
    heapPop cmp (o :: tl) = some (o, tl) := by
  unfold heapPop
  rw [h]
  simp [hlt]

theorem heapPop_eq_none_iff (cmp : Order → Order → Ordering) (l : List Order) :
    heapPop cmp l = none ↔ l = [] := by
  cases l with
  | nil => simp [heapPop_nil]
  | cons o rest =>
    constructor
    · intro h
      exfalso
      cases hh : heapPop cmp rest with
      | none => rw [heapPop_cons_none hh o] at h; exact absurd h (by simp)
      | some pr =>
        obtain ⟨m, rest'⟩ := pr
        by_cases hc : cmp o m = Ordering.lt
        · rw [heapPop_cons_lt hh hc] at h; exact absurd h (by simp)
        · rw [heapPop_cons_ge hh hc] at h; exact absurd h (by simp)
    · intro h; exact absurd h (by simp)

theorem heapPop_perm (cmp : Order → Order → Ordering) :
    ∀ (l : List Order) (r : Order) (rest : List Order),
      heapPop cmp l = some (r, rest) → l.Perm (r :: rest)
  | [], r, rest => by simp [heapPop_nil]
  | o :: tl, r, rest => by
    intro he
    cases h : heapPop cmp tl with
    | none =>
      rw [heapPop_cons_none h o] at he
      simp only [Option.some.injEq, Prod.mk.injEq] at he
      obtain ⟨h1, h2⟩ := he
      subst h1; subst h2
      rw [heapPop_eq_none_iff] at h
      subst h
      exact List.Perm.refl _
    | some pr =>
      obtain ⟨m, rest'⟩ := pr
      have ih := heapPop_perm cmp tl m rest' h
      by_cases hc : cmp o m = Ordering.lt
      · rw [heapPop_cons_lt h hc] at he
        simp only [Option.some.injEq, Prod.mk.injEq] at he
        obtain ⟨h1, h2⟩ := he
        subst h1; subst h2
        exact List.Perm.trans (ih.cons o) (List.Perm.swap m o rest')
      · rw [heapPop_cons_ge h hc] at he
        simp only [Option.some.injEq, Prod.mk.injEq] at he
        obtain ⟨h1, h2⟩ := he
        subst h1; subst h2
        exact List.Perm.refl _

/-- The popped element is maximal: no element of the list is greater.
Stated for a comparator that is reflexively-not-less, asymmetric, and
transitive in the not-less sense (both `bidCmp` and `askCmp` are). -/
theorem heapPop_maximal (cmp : Order → Order → Ordering)
    (hrefl : ∀ a, cmp a a ≠ Ordering.lt)
    (hasymm : ∀ a b, cmp a b = Ordering.lt → cmp b a ≠ Ordering.lt)
    (htrans : ∀ a b c, cmp a b ≠ Ordering.lt → cmp b c ≠ Ordering.lt →
      cmp a c ≠ Ordering.lt) :
    ∀ (l : List Order) (r : Order) (rest : List Order),
      heapPop cmp l = some (r, rest) → ∀ x ∈ l, cmp r x ≠ Ordering.lt
  | [], r, rest => by simp [heapPop_nil]
  | o :: tl, r, rest => by
    intro he
    cases h : heapPop cmp tl with
    | none =>
      rw [heapPop_cons_none h o] at he
      simp only [Option.some.injEq, Prod.mk.injEq] at he
      obtain ⟨h1, _⟩ := he
      subst h1
      rw [heapPop_eq_none_iff] at h
      subst h
      intro x hx
      simp only [List.mem_singleton] at hx
      subst hx
      exact hrefl _
    | some pr =>
      obtain ⟨m, rest'⟩ := pr
      have ih := heapPop_maximal cmp hrefl hasymm htrans tl m rest' h
      by_cases hc : cmp o m = Ordering.lt
      · rw [heapPop_cons_lt h hc] at he
        simp only [Option.some.injEq, Prod.mk.injEq] at he
        obtain ⟨h1, _⟩ := he
        subst h1
        intro x hx
        rcases List.mem_cons.mp hx with h1 | h1
        · subst h1; exact hasymm _ _ hc
        · exact ih x h1
      · rw [heapPop_cons_ge h hc] at he
        simp only [Option.some.injEq, Prod.mk.injEq] at he
        obtain ⟨h1, _⟩ := he
        subst h1
        intro x hx
        rcases List.mem_cons.mp hx with h1 | h1
        · subst h1; exact hrefl _
        · exact htrans _ m x hc (ih x h1)

theorem heapPeek_eq_none_iff (cmp : Order → Order → Ordering) (l : List Order) :
    heapPeek cmp l = none ↔ l = [] := by
  unfold heapPeek
  constructor
  · intro h
    rw [← heapPop_eq_none_iff cmp l]
    cases hx : heapPop cmp l with
    | none => rfl
    | some r => rw [hx] at h; exact absurd h (by simp)
  · intro h
    subst h
    rw [heapPop_nil]
    rfl

/-- The price at the top of a bid heap after one push is the running
maximum — exactly the cache update `add_order` performs. -/
theorem heapPeek_price_cons_bid (o : Order) (l : List Order) :
    (heapPeek bidCmp (o :: l)).map (fun x => x.price) =
      some (match (heapPeek bidCmp l).map (fun x => x.price) with
            | some c => max c o.price
            | none => o.price) := by
  cases h : heapPop bidCmp l with
  | none =>
    unfold heapPeek
    rw [heapPop_cons_none h o, h]
    simp
  | some pr =>
    obtain ⟨m, rest'⟩ := pr
    by_cases hc : bidCmp o m = Ordering.lt
    · unfold heapPeek
      rw [heapPop_cons_lt h hc, h]
      have := (bidCmp_lt_iff o m).mp hc
      have h2 : o.price ≤ m.price := by omega
      simp only [Option.map, Option.bind]
      congr 1
      exact (Nat.max_eq_left h2).symm
    · unfold heapPeek
      rw [heapPop_cons_ge h hc, h]
      rw [bidCmp_lt_iff] at hc
      have h2 : m.price ≤ o.price := by omega
      simp only [Option.map, Option.bind]
      congr 1
      exact (Nat.max_eq_right h2).symm

/-- The price at the top of an ask heap after one push is the running
minimum — exactly the cache update `add_order` performs. -/
theorem heapPeek_price_cons_ask (o : Order) (l : List Order) :
    (heapPeek askCmp (o :: l)).map (fun x => x.price) =
      some (match (heapPeek askCmp l).map (fun x => x.price) with
            | some c => min c o.price
            | none => o.price) := by
  cases h : heapPop askCmp l with
  | none =>
    unfold heapPeek
    rw [heapPop_cons_none h o, h]
    simp
  | some pr =>
    obtain ⟨m, rest'⟩ := pr
    by_cases hc : askCmp o m = Ordering.lt
    · unfold heapPeek
      rw [heapPop_cons_lt h hc, h]
      have := (askCmp_lt_iff o m).mp hc
      have h2 : m.price ≤ o.price := by omega
      simp only [Option.map, Option.bind]
      congr 1
      exact (Nat.min_eq_left h2).symm
    · unfold heapPeek
      rw [heapPop_cons_ge h hc, h]
      rw [askCmp_lt_iff] at hc
      have h2 : o.price ≤ m.price := by omega
      simp only [Option.map, Option.bind]
      congr 1
      exact (Nat.min_eq_right h2).symm

/-! ## The HashMap matching loop -/

theorem hmMatchLoop_no_cross (fuel : Nat) (m : HashMapMatcher)
    (h : m.can_match = false) :
    HashMapMatcher.matchLoop (fuel + 1) m = ([], m) := by
  unfold HashMapMatcher.can_match at h
  cases hb : m.get_best_bid with
  | none =>
    conv_lhs => unfold HashMapMatcher.matchLoop; rw [hb]
  | some bp =>
    cases ha : m.get_best_ask with
    | none =>
      conv_lhs => unfold HashMapMatcher.matchLoop; rw [hb, ha]
    | some ap =>
      rw [hb, ha] at h
      have hle : ¬ ap ≤ bp := by simpa using h
      conv_lhs => unfold HashMapMatcher.matchLoop; rw [hb, ha]
      simp [hle]

theorem hmMatchLoop_step {m : HashMapMatcher} {bp ap : Nat}
    (hb : m.get_best_bid = some bp) (ha : m.get_best_ask = some ap)
    (hle : ap ≤ bp) {b a : Order} {bids' asks' : Levels}
    (hpb : m.bid_levels.popAt bp = (some b, bids'))
    (hpa : m.ask_levels.popAt ap = (some a, asks')) (fuel : Nat) :
    HashMapMatcher.matchLoop (fuel + 1) m =
      ((b, a) :: (HashMapMatcher.matchLoop fuel
          { bid_levels := bids'.removeIfEmpty bp
            ask_levels := asks'.removeIfEmpty ap }).1,
        (HashMapMatcher.matchLoop fuel
          { bid_levels := bids'.removeIfEmpty bp
            ask_levels := asks'.removeIfEmpty ap }).2) := by
  conv_lhs => unfold HashMapMatcher.matchLoop; rw [hb, ha]
  simp [hle, hpb, hpa]

/-- The post-state of the matching loop, given enough fuel: still
well-formed, no cross remains, and every recorded pair crossed. -/
theorem hmMatchLoop_spec : ∀ (fuel : Nat) (m : HashMapMatcher),
    m.bid_levels.WF → m.ask_levels.WF → m.size < fuel →
    (HashMapMatcher.matchLoop fuel m).2.bid_levels.WF ∧
    (HashMapMatcher.matchLoop fuel m).2.ask_levels.WF ∧
    (HashMapMatcher.matchLoop fuel m).2.can_match = false ∧
    ∀ pr ∈ (HashMapMatcher.matchLoop fuel m).1, pr.2.price ≤ pr.1.price
  | 0, m => by intro _ _ hf; exact absurd hf (by omega)
  | fuel + 1, m => by
    intro hwb hwa hf
    by_cases hcm : m.can_match = false
    · rw [hmMatchLoop_no_cross fuel m hcm]
      exact ⟨hwb, hwa, hcm, by simp⟩
    · rw [Bool.not_eq_false] at hcm
      unfold HashMapMatcher.can_match at hcm
      obtain ⟨bp, hb⟩ : ∃ bp, m.get_best_bid = some bp := by
        cases hx : m.get_best_bid with
        | none => rw [hx] at hcm; simp at hcm
        | some bp => exact ⟨bp, rfl⟩
      obtain ⟨ap, ha⟩ : ∃ ap, m.get_best_ask = some ap := by
        cases hx : m.get_best_ask with
        | none =>
          rw [hx] at hcm
          cases hy : m.get_best_bid <;> rw [hy] at hcm <;> simp at hcm
        | some ap => exact ⟨ap, rfl⟩
      rw [hb, ha] at hcm
      have hle : ap ≤ bp := by simpa using hcm
      obtain ⟨_, lvb, hgb⟩ := hm_best_bid_spec hwb hb
      obtain ⟨_, lva, hga⟩ := hm_best_ask_spec hwa ha
      obtain ⟨b, restb, hob, hpb1, hbp, hwb', hpermb, _, _, _⟩ :=
        levels_pop_cleanup hwb hgb
      obtain ⟨a, resta, hoa, hpa1, hap, hwa', hperma, _, _, _⟩ :=
        levels_pop_cleanup hwa hga
      have hpb : m.bid_levels.popAt bp = (some b, (m.bid_levels.popAt bp).2) := by
        rw [← hpb1]
      have hpa : m.ask_levels.popAt ap = (some a, (m.ask_levels.popAt ap).2) := by
        rw [← hpa1]
      rw [hmMatchLoop_step hb ha hle hpb hpa fuel]
      have hsz : (HashMapMatcher.size
          { bid_levels := (m.bid_levels.popAt bp).2.removeIfEmpty bp
            ask_levels := (m.ask_levels.popAt ap).2.removeIfEmpty ap }) < fuel := by
        have h1 := hpermb.length_eq
        have h2 := hperma.length_eq
        simp only [List.length_cons] at h1 h2
        unfold HashMapMatcher.size at hf ⊢
        simp only
        omega
      have ih := hmMatchLoop_spec fuel
        { bid_levels := (m.bid_levels.popAt bp).2.removeIfEmpty bp
          ask_levels := (m.ask_levels.popAt ap).2.removeIfEmpty ap }
        hwb' hwa' hsz
      refine ⟨ih.1, ih.2.1, ih.2.2.1, ?_⟩
      intro pr hpr
      rcases List.mem_cons.mp hpr with hpr | hpr
      · subst hpr
        show a.price ≤ b.price
        omega
      · exact ih.2.2.2 pr hpr

/-- After a full `match_orders` call the state is quiescent: no cross
remains and a second call changes nothing. -/
theorem hm_match_orders_spec (m : HashMapMatcher)
    (hwb : m.bid_levels.WF) (hwa : m.ask_levels.WF) :
    (m.match_orders).2.bid_levels.WF ∧
    (m.match_orders).2.ask_levels.WF ∧
    (m.match_orders).2.can_match = false ∧
    (∀ pr ∈ (m.match_orders).1, pr.2.price ≤ pr.1.price) ∧
    ((m.match_orders).2.match_orders = ([], (m.match_orders).2)) := by
  have h := hmMatchLoop_spec (m.size + 1) m hwb hwa (by omega)
  refine ⟨h.1, h.2.1, h.2.2.1, h.2.2.2, ?_⟩
  unfold HashMapMatcher.match_orders
  exact hmMatchLoop_no_cross _ _ h.2.2.1

/-- Folding any order sequence into the empty matcher yields a well-formed
matcher. -/
theorem hm_WF_ofList (os : List Order) :
    (HashMapMatcher.ofList os).bid_levels.WF ∧
    (HashMapMatcher.ofList os).ask_levels.WF := by
  suffices h : ∀ (m : HashMapMatcher), m.bid_levels.WF → m.ask_levels.WF →
      (os.foldl HashMapMatcher.add_order m).bid_levels.WF ∧
      (os.foldl HashMapMatcher.add_order m).ask_levels.WF by
    exact h HashMapMatcher.new levels_WF_nil levels_WF_nil
  induction os with
  | nil => intro m hwb hwa; exact ⟨hwb, hwa⟩
  | cons o rest ih =>
    intro m hwb hwa
    rw [List.foldl_cons]
    apply ih
    · unfold HashMapMatcher.add_order
      cases o.order_type with
      | Buy => exact levels_WF_add o hwb
      | Sell => exact hwb
    · unfold HashMapMatcher.add_order
      cases o.order_type with
      | Buy => exact hwa
      | Sell => exact levels_WF_add o hwa

/-! ## Priority-Queue matcher invariant: the cached best prices equal the
prices at the heap tops on every state the program can reach. -/

theorem pq_cacheInv_new : PriorityQueueMatcher.new.cacheInv := by
  constructor <;> rfl

theorem pq_cacheInv_add (m : PriorityQueueMatcher) (o : Order)
    (h : m.cacheInv) : (m.add_order o).cacheInv := by
  obtain ⟨hb, ha⟩ := h
  unfold PriorityQueueMatcher.add_order
  cases o.order_type with
  | Buy =>
    refine ⟨?_, ha⟩
    rw [heapPeek_price_cons_bid o m.bids, ← hb]
  | Sell =>
    refine ⟨hb, ?_⟩
    rw [heapPeek_price_cons_ask o m.asks, ← ha]

theorem pqMatchLoop_not_can_match (fuel : Nat) (m : PriorityQueueMatcher)
    (h : m.can_match = false) :
    PriorityQueueMatcher.matchLoop (fuel + 1) m = ([], m) := by
  unfold PriorityQueueMatcher.matchLoop
  rw [h]
  simp

/-- One successful iteration of the Priority-Queue matching loop. -/
theorem pqMatchLoop_step {m : PriorityQueueMatcher} (hcm : m.can_match = true)
    {b a : Order} {bids' asks' : List Order}
    (hpb : heapPop bidCmp m.bids = some (b, bids'))
    (hpa : heapPop askCmp m.asks = some (a, asks')) (fuel : Nat) :
    PriorityQueueMatcher.matchLoop (fuel + 1) m =
      ((b, a) :: (PriorityQueueMatcher.matchLoop fuel
          { bids := bids', asks := asks'
            best_bid := (heapPeek bidCmp bids').map (fun o => o.price)
            best_ask := (heapPeek askCmp asks').map (fun o => o.price) }).1,
       (PriorityQueueMatcher.matchLoop fuel
          { bids := bids', asks := asks'
            best_bid := (heapPeek bidCmp bids').map (fun o => o.price)
            best_ask := (heapPeek askCmp asks').map (fun o => o.price) }).2) := by
  conv_lhs => unfold PriorityQueueMatcher.matchLoop
  rw [hcm, hpb, hpa]
  rfl

/-- The core specification of the Priority-Queue matching loop on states
where the cache is exact: the final state's cache is still exact, no cross
remains, and every matched pair crosses. -/
theorem pqMatchLoop_spec : ∀ (fuel : Nat) (m : PriorityQueueMatcher),
    m.cacheInv → m.bids.length + m.asks.length < fuel →
    (PriorityQueueMatcher.matchLoop fuel m).2.cacheInv ∧
    (PriorityQueueMatcher.matchLoop fuel m).2.can_match = false ∧
    ∀ pr ∈ (PriorityQueueMatcher.matchLoop fuel m).1, pr.2.price ≤ pr.1.price
  | 0, m => by intro _ hf; exact absurd hf (by omega)
  | fuel + 1, m => by
    intro hinv hf
    by_cases hcm : m.can_match = false
    · rw [pqMatchLoop_not_can_match fuel m hcm]
      exact ⟨hinv, hcm, by simp⟩
    · rw [Bool.not_eq_false] at hcm
      obtain ⟨hb, ha⟩ := hinv
      -- a true cached cross means both caches are `some`, hence both heaps
      -- are non-empty and both pops succeed
      have hbs : ∃ bp, m.best_bid = some bp := by
        unfold PriorityQueueMatcher.can_match at hcm
        cases hx : m.best_bid with
        | none => rw [hx] at hcm; simp at hcm
        | some bp => exact ⟨bp, rfl⟩
      have has : ∃ ap, m.best_ask = some ap := by
        unfold PriorityQueueMatcher.can_match at hcm
        cases hx : m.best_ask with
        | none => rw [hx] at hcm; cases hy : m.best_bid <;> rw [hy] at hcm <;> simp at hcm
        | some ap => exact ⟨ap, rfl⟩
      obtain ⟨bp, hbp⟩ := hbs
      obtain ⟨ap, hap⟩ := has
      have hble : ap ≤ bp := by
        unfold PriorityQueueMatcher.can_match at hcm
        rw [hbp, hap] at hcm
        simpa using hcm
      have hbne : m.bids ≠ [] := by
        intro he
        rw [hbp] at hb
        rw [he] at hb
        simp [heapPeek, heapPop_nil] at hb
      have hane : m.asks ≠ [] := by
        intro he
        rw [hap] at ha
        rw [he] at ha
        simp [heapPeek, heapPop_nil] at ha
      obtain ⟨⟨b, bids'⟩, hpb⟩ :
          ∃ r, heapPop bidCmp m.bids = some r := by
        cases hx : heapPop bidCmp m.bids with
        | none => rw [heapPop_eq_none_iff] at hx; exact absurd hx hbne
        | some r => exact ⟨r, rfl⟩
      obtain ⟨⟨a, asks'⟩, hpa⟩ :
          ∃ r, heapPop askCmp m.asks = some r := by
        cases hx : heapPop askCmp m.asks with
        | none => rw [heapPop_eq_none_iff] at hx; exact absurd hx hane
        | some r => exact ⟨r, rfl⟩
      have hstep := pqMatchLoop_step hcm hpb hpa fuel
      have hlenb : bids'.length + 1 = m.bids.length := by
        have := (heapPop_perm bidCmp m.bids b bids' hpb).length_eq
        simpa using this.symm
      have hlena : asks'.length + 1 = m.asks.length := by
        have := (heapPop_perm askCmp m.asks a asks' hpa).length_eq
        simpa using this.symm
      have hinv' : PriorityQueueMatcher.cacheInv
          { bids := bids', asks := asks'
            best_bid := (heapPeek bidCmp bids').map (fun o => o.price)
            best_ask := (heapPeek askCmp asks').map (fun o => o.price) } :=
        ⟨rfl, rfl⟩
      have ih := pqMatchLoop_spec fuel
        { bids := bids', asks := asks'
          best_bid := (heapPeek bidCmp bids').map (fun o => o.price)
          best_ask := (heapPeek askCmp asks').map (fun o => o.price) }
        hinv' (by show bids'.length + asks'.length < fuel; omega)
      rw [hstep]
      refine ⟨ih.1, ih.2.1, ?_⟩
      intro pr hpr
      simp only [List.mem_cons] at hpr
      rcases hpr with hpr | hpr
      · subst hpr
        -- the popped orders' prices are exactly the cached best prices
        have hbprice : b.price = bp := by
          rw [hbp] at hb
          unfold heapPeek at hb
          rw [hpb] at hb
          simp at hb
          omega
        have haprice : a.price = ap := by
          rw [hap] at ha
          unfold heapPeek at ha
          rw [hpa] at ha
          simp at ha
          omega
        show a.price ≤ b.price
        omega
      · exact ih.2.2 pr hpr

/-- `match_orders` for the Priority-Queue matcher: quiescence and crossing
pairs, on cache-exact states. -/
theorem pq_match_orders_spec (m : PriorityQueueMatcher) (hinv : m.cacheInv) :
    (m.match_orders).2.cacheInv ∧
    (m.match_orders).2.can_match = false ∧
    (∀ pr ∈ (m.match_orders).1, pr.2.price ≤ pr.1.price) ∧
    (m.match_orders).2.match_orders = ([], (m.match_orders).2) := by
  have h := pqMatchLoop_spec (m.bids.length + m.asks.length + 1) m hinv (by omega)
  refine ⟨h.1, h.2.1, h.2.2, ?_⟩
  unfold PriorityQueueMatcher.match_orders
  exact pqMatchLoop_not_can_match _ _ h.2.1

/-- Folding any order sequence into the empty matcher keeps the cache
exact. -/
theorem pq_cacheInv_ofList (os : List Order) :
    (PriorityQueueMatcher.ofList os).cacheInv := by
  suffices h : ∀ (m : PriorityQueueMatcher), m.cacheInv →
      (os.foldl PriorityQueueMatcher.add_order m).cacheInv by
    exact h PriorityQueueMatcher.new pq_cacheInv_new
  induction os with
  | nil => intro m hm; exact hm
  | cons o rest ih =>
    intro m hm
    rw [List.foldl_cons]
    exact ih _ (pq_cacheInv_add m o hm)

theorem hm_not_cross {m : HashMapMatcher} (h : m.can_match = false)
    {bp ap : Nat} (hb : m.get_best_bid = some bp)
    (ha : m.get_best_ask = some ap) : bp < ap := by
  unfold HashMapMatcher.can_match at h
  rw [hb, ha] at h
  have : ¬ ap ≤ bp := by simpa using h
  omega

theorem pq_not_cross {m : PriorityQueueMatcher} (hinv : m.cacheInv)
    (h : m.can_match = false) {bp ap : Nat}
    (hb : (m.get_best_prices).1 = some bp)
    (ha : (m.get_best_prices).2 = some ap) : bp < ap := by
  obtain ⟨h1, h2⟩ := hinv
  unfold PriorityQueueMatcher.get_best_prices at hb ha
  unfold PriorityQueueMatcher.can_match at h
  rw [h1, h2] at h
  simp only at hb ha
  rw [hb, ha] at h
  have : ¬ ap ≤ bp := by simpa using h
  omega

/-! ## Price-time priority order of matched bids -/

theorem beforeIn_nil {α : Type} (x y : α) : beforeIn x y [] := by
  intro pre post h
  exact absurd h (by simp)

theorem beforeIn_cons {α : Type} {x y c : α} {t : List α} (hc : c ≠ y)
    (h : beforeIn x y t) : beforeIn x y (c :: t) := by
  intro pre post hp
  cases pre with
  | nil =>
    simp only [List.nil_append] at hp
    injection hp with h1 _
    exact absurd h1 hc
  | cons d pre2 =>
    simp only [List.cons_append] at hp
    injection hp with h1 h2
    subst h1
    exact List.mem_cons_of_mem _ (h pre2 post h2)

theorem beforeIn_head {α : Type} {x y : α} (hxy : x ≠ y) (t : List α) :
    beforeIn x y (x :: t) := by
  intro pre post hp
  cases pre with
  | nil =>
    simp only [List.nil_append] at hp
    injection hp with h1 _
    exact absurd h1 hxy
  | cons d pre2 =>
    simp only [List.cons_append] at hp
    injection hp with h1 _
    subst h1
    exact List.mem_cons_self _ _

theorem beforeIn_tail {α : Type} {x y c : α} {t : List α} (hcx : c ≠ x)
    (h : beforeIn x y (c :: t)) : beforeIn x y t := by
  intro pre post hp
  have h2 := h (c :: pre) post (by rw [hp]; rfl)
  rcases List.mem_cons.mp h2 with h3 | h3
  · exact absurd h3.symm hcx
  · exact h3

theorem beforeIn_head_absurd {α : Type} {x y : α} {t : List α}
    (h : beforeIn x y (y :: t)) : False := by
  have h2 := h [] t rfl
  simp at h2

/-- While a same-price bid with a lower identifier rests in the heap, a pop
never returns the higher-identifier bid. -/
theorem heapPop_ne_second {l : List Order} {b1 b2 r : Order}
    {rest : List Order} (hp : heapPop bidCmp l = some (r, rest)) (h1 : b1 ∈ l)
    (hpr : b1.price = b2.price) (hid : b1.id < b2.id) : r ≠ b2 := by
  intro he
  subst he
  have hmax := heapPop_maximal bidCmp bidCmp_refl_not_lt
    (fun a b h => bidCmp_asymm h) (fun a b c h h' => bidCmp_not_lt_trans h h')
    l r rest hp b1 h1
  apply hmax
  rw [bidCmp_lt_iff]
  right
  exact ⟨hpr.symm, hid⟩

theorem pqMatchLoop_break_ask_none {m : PriorityQueueMatcher}
    (hcm : m.can_match = true) {r : Order} {bids' : List Order}
    (hpb : heapPop bidCmp m.bids = some (r, bids'))
    (hpa : heapPop askCmp m.asks = none) (fuel : Nat) :
    PriorityQueueMatcher.matchLoop (fuel + 1) m = ([], { m with bids := bids' }) := by
  conv_lhs => unfold PriorityQueueMatcher.matchLoop
  rw [hcm, hpb, hpa]
  rfl

/-- Priority of matched bids in the Priority-Queue loop: a resting bid with
the lower identifier at the same price is matched before the other. -/
theorem pqMatchLoop_priority : ∀ (fuel : Nat) (m : PriorityQueueMatcher)
    (b1 b2 : Order), b1.price = b2.price → b1.id < b2.id → b1 ∈ m.bids →
    beforeIn b1 b2
      ((PriorityQueueMatcher.matchLoop fuel m).1.map (fun pr => pr.1))
  | 0, m, b1, b2 => fun _ _ _ => beforeIn_nil b1 b2
  | fuel + 1, m, b1, b2 => by
    intro hpr hid hmem
    by_cases hcm : m.can_match = true
    · cases hpb : heapPop bidCmp m.bids with
      | none =>
        rw [heapPop_eq_none_iff] at hpb
        rw [hpb] at hmem
        exact absurd hmem (by simp)
      | some r1 =>
        obtain ⟨r, bids'⟩ := r1
        cases hpa : heapPop askCmp m.asks with
        | none =>
          rw [pqMatchLoop_break_ask_none hcm hpb hpa fuel]
          exact beforeIn_nil b1 b2
        | some r2 =>
          obtain ⟨a, asks'⟩ := r2
          rw [pqMatchLoop_step hcm hpb hpa fuel]
          have hrne : r ≠ b2 := heapPop_ne_second hpb hmem hpr hid
          by_cases hr1 : r = b1
          · subst hr1
            simp only [List.map_cons]
            exact beforeIn_head (fun he => by subst he; omega) _
          · have hmem2 : b1 ∈ bids' := by
              have hperm := heapPop_perm bidCmp m.bids r bids' hpb
              rcases List.mem_cons.mp (hperm.mem_iff.mp hmem) with h3 | h3
              · exact absurd h3.symm hr1
              · exact h3
            simp only [List.map_cons]
            exact beforeIn_cons hrne (pqMatchLoop_priority fuel _ b1 b2 hpr hid hmem2)
    · rw [pqMatchLoop_not_can_match fuel m (by simpa using hcm)]
      exact beforeIn_nil b1 b2

/-- Priority of matched bids in the HashMap loop: within the level at
`b2.price`, whatever rests in front is matched first. -/
theorem hmMatchLoop_priority : ∀ (fuel : Nat) (m : HashMapMatcher)
    (b1 b2 : Order), m.bid_levels.WF → m.ask_levels.WF →
    b1.price = b2.price → b1 ≠ b2 →
    beforeIn b1 b2 (m.bid_levels.ordersAt b2.price) →
    beforeIn b1 b2 ((HashMapMatcher.matchLoop fuel m).1.map (fun pr => pr.1))
  | 0, m, b1, b2 => fun _ _ _ _ _ => beforeIn_nil b1 b2
  | fuel + 1, m, b1, b2 => by
    intro hwb hwa hpr hne hbef
    by_cases hcm : m.can_match = false
    · rw [hmMatchLoop_no_cross fuel m hcm]
      exact beforeIn_nil b1 b2
    · rw [Bool.not_eq_false] at hcm
      unfold HashMapMatcher.can_match at hcm
      obtain ⟨bp, hb⟩ : ∃ bp, m.get_best_bid = some bp := by
        cases hx : m.get_best_bid with
        | none => rw [hx] at hcm; simp at hcm
        | some bp => exact ⟨bp, rfl⟩
      obtain ⟨ap, ha⟩ : ∃ ap, m.get_best_ask = some ap := by
        cases hx : m.get_best_ask with
        | none =>
          rw [hx] at hcm
          cases hy : m.get_best_bid <;> rw [hy] at hcm <;> simp at hcm
        | some ap => exact ⟨ap, rfl⟩
      rw [hb, ha] at hcm
      have hle : ap ≤ bp := by simpa using hcm
      obtain ⟨_, lvb, hgb⟩ := hm_best_bid_spec hwb hb
      obtain ⟨_, lva, hga⟩ := hm_best_ask_spec hwa ha
      obtain ⟨b, restb, hob, hpb1, hbp, hwb', hpermb, hordb, hgetb, _⟩ :=
        levels_pop_cleanup hwb hgb
      obtain ⟨a, resta, hoa, hpa1, hap, hwa', hperma, _, _, _⟩ :=
        levels_pop_cleanup hwa hga
      have hpb : m.bid_levels.popAt bp = (some b, (m.bid_levels.popAt bp).2) := by
        rw [← hpb1]
      have hpa : m.ask_levels.popAt ap = (some a, (m.ask_levels.popAt ap).2) := by
        rw [← hpa1]
      rw [hmMatchLoop_step hb ha hle hpb hpa fuel]
      simp only [List.map_cons]
      by_cases hbpp : bp = b2.price
      · -- the popped level is b2's level
        have hord : m.bid_levels.ordersAt b2.price = b :: restb := by
          unfold Levels.ordersAt
          rw [← hbpp, hgb]
          exact hob
        rw [hord] at hbef
        by_cases hb2 : b = b2
        · subst hb2
          exact absurd hbef (fun h => beforeIn_head_absurd h)
        · by_cases hb1 : b = b1
          · subst hb1
            exact beforeIn_head hne _
          · have hbef2 : beforeIn b1 b2 restb := beforeIn_tail hb1 hbef
            have hbef3 : beforeIn b1 b2
                (Levels.ordersAt ((m.bid_levels.popAt bp).2.removeIfEmpty bp)
                  b2.price) := by
              rw [hbpp] at hordb
              rw [hbpp, hordb]
              exact hbef2
            exact beforeIn_cons hb2
              (hmMatchLoop_priority fuel _ b1 b2 hwb' hwa' hpr hne hbef3)
      · -- a different price level was popped, so b2's level is untouched
        have hb2 : b ≠ b2 := by
          intro he
          subst he
          exact hbpp hbp.symm
        have hbef3 : beforeIn b1 b2
            (Levels.ordersAt ((m.bid_levels.popAt bp).2.removeIfEmpty bp)
              b2.price) := by
          unfold Levels.ordersAt
          rw [hgetb b2.price (fun he => hbpp he.symm)]
          exact hbef
        exact beforeIn_cons hb2
          (hmMatchLoop_priority fuel _ b1 b2 hwb' hwa' hpr hne hbef3)

/-- The bid-side level FIFO at price `p` after folding an order sequence
into the empty HashMap matcher is exactly the arrival-ordered subsequence
of buy orders at that price. -/
theorem hm_ordersAt_ofList (os : List Order) (p : Nat) :
    Levels.ordersAt (HashMapMatcher.ofList os).bid_levels p =
      os.filter (fun o =>
        decide (o.order_type = OrderSide.Buy) && decide (o.price = p)) := by
  suffices h : ∀ (m : HashMapMatcher), m.bid_levels.WF →
      Levels.ordersAt (os.foldl HashMapMatcher.add_order m).bid_levels p =
        Levels.ordersAt m.bid_levels p ++ os.filter (fun o =>
          decide (o.order_type = OrderSide.Buy) && decide (o.price = p)) by
    have h2 := h HashMapMatcher.new levels_WF_nil
    unfold HashMapMatcher.ofList
    rw [h2]
    rfl
  induction os with
  | nil =>
    intro m hw
    simp
  | cons o rest ih =>
    intro m hw
    rw [List.foldl_cons, List.filter_cons]
    have hwadd : (m.add_order o).bid_levels.WF := by
      unfold HashMapMatcher.add_order
      cases o.order_type with
      | Buy => exact levels_WF_add o hw
      | Sell => exact hw
    rw [ih _ hwadd]
    cases hside : o.order_type with
    | Buy =>
      have hb : (m.add_order o).bid_levels = m.bid_levels.add o.price o := by
        unfold HashMapMatcher.add_order
        rw [hside]
      rw [hb, levels_ordersAt_add o p hw.1]
      by_cases hp : p = o.price
      · subst hp
        simp [hside, List.append_assoc]
      · rw [if_neg hp]
        have hop : ¬ o.price = p := fun he => hp he.symm
        simp [hop]
    | Sell =>
      have hb : (m.add_order o).bid_levels = m.bid_levels := by
        unfold HashMapMatcher.add_order
        rw [hside]
      rw [hb]
      simp [hside]

/-! ## Array-Queue matcher lemmas -/

theorem aq_matchAttempts_stop (n : Nat) (m : ArrayQueueMatcher) (cnt : Nat)
    (h : m.can_match_optimistic = false) :
    ArrayQueueMatcher.matchAttempts (n + 1) m cnt = (cnt, m) := by
  unfold ArrayQueueMatcher.matchAttempts
  rw [h]
  rfl

/-- With a cleared bid extremum the bounded matching loop does nothing. -/
theorem aq_match_orders_stop (m : ArrayQueueMatcher)
    (hb : m.best_bid = none) : m.match_orders = (0, m) := by
  have h : m.can_match_optimistic = false := by
    unfold ArrayQueueMatcher.can_match_optimistic
    rw [hb]
  unfold ArrayQueueMatcher.match_orders
  rw [show ArrayQueueMatcher.max_matches = 99 + 1 from rfl,
    aq_matchAttempts_stop 99 m 0 h]
  rfl

theorem hm_can_match_iff (m : HashMapMatcher) :
    m.can_match = true ↔
      ∃ bb ba, m.get_best_prices = (some bb, some ba) ∧ ba ≤ bb := by
  unfold HashMapMatcher.can_match HashMapMatcher.get_best_prices
  cases hb : m.get_best_bid with
  | none =>
    simp
  | some bb =>
    cases ha : m.get_best_ask with
    | none =>
      simp
    | some ba =>
      simp only [decide_eq_true_eq, Prod.mk.injEq, Option.some.injEq]
      constructor
      · intro h
        exact ⟨bb, ba, ⟨rfl, rfl⟩, h⟩
      · rintro ⟨bb2, ba2, ⟨h1, h2⟩, h3⟩
        subst h1; subst h2
        exact h3

theorem pq_can_match_iff (m : PriorityQueueMatcher) (h : m.cacheInv) :
    m.can_match = true ↔
      ∃ bb ba, m.get_best_prices = (some bb, some ba) ∧ ba ≤ bb := by
  obtain ⟨h1, h2⟩ := h
  unfold PriorityQueueMatcher.can_match PriorityQueueMatcher.get_best_prices
  rw [h1, h2]
  cases hb : (heapPeek bidCmp m.bids).map (fun o => o.price) with
  | none =>
    simp
  | some bb =>
    cases ha : (heapPeek askCmp m.asks).map (fun o => o.price) with
    | none =>
      simp
    | some ba =>
      simp only [decide_eq_true_eq, Prod.mk.injEq, Option.some.injEq]
      constructor
      · intro hc
        exact ⟨bb, ba, ⟨rfl, rfl⟩, hc⟩
      · rintro ⟨bb2, ba2, ⟨hb1, hb2⟩, h3⟩
        subst hb1; subst hb2
        exact h3

theorem aq_can_match_iff (m : ArrayQueueMatcher) (h : m.inv) :
    m.can_match = true ↔
      ∃ bb ba, m.get_best_prices = (some bb, some ba) ∧ ba ≤ bb := by
  obtain ⟨hb, ha, _, _, _, _⟩ := h
  unfold ArrayQueueMatcher.can_match ArrayQueueMatcher.get_best_prices
  constructor
  · intro hc
    by_cases he : m.bids.isEmpty || m.asks.isEmpty
    · rw [if_pos he] at hc
      exact absurd hc (by simp)
    · rw [if_neg he] at hc
      cases hbb : m.best_bid with
      | none => rw [hbb] at hc; exact absurd hc (by simp)
      | some bb =>
        cases hba : m.best_ask with
        | none => rw [hbb, hba] at hc; exact absurd hc (by simp)
        | some ba =>
          rw [hbb, hba] at hc
          exact ⟨bb, ba, rfl, by simpa using hc⟩
  · rintro ⟨bb, ba, hpr, hle⟩
    have hbb : m.best_bid = some bb := by
      have := congrArg Prod.fst hpr
      simpa using this
    have hba : m.best_ask = some ba := by
      have := congrArg Prod.snd hpr
      simpa using this
    have hbne : m.bids.items ≠ [] := hb (by rw [hbb]; rfl)
    have hane : m.asks.items ≠ [] := ha (by rw [hba]; rfl)
    have he : (m.bids.isEmpty || m.asks.isEmpty) = false := by
      unfold ArrayQueue.isEmpty
      simp [hbne, hane]
    rw [if_neg (by rw [he]; simp)]
    rw [hbb, hba]
    simpa using hle

/-- `can_match_optimistic = true` unpacked. -/
theorem aq_opt_spec {m : ArrayQueueMatcher}
    (h : m.can_match_optimistic = true) :
    ∃ bb ba, m.best_bid = some bb ∧ m.best_ask = some ba ∧ ba ≤ bb ∧
      m.bids.items ≠ [] ∧ m.asks.items ≠ [] := by
  unfold ArrayQueueMatcher.can_match_optimistic at h
  cases hbb : m.best_bid with
  | none => rw [hbb] at h; exact absurd h (by simp)
  | some bb =>
    cases hba : m.best_ask with
    | none => rw [hbb, hba] at h; exact absurd h (by simp)
    | some ba =>
      rw [hbb, hba] at h
      have h2 : (decide (ba ≤ bb) && !m.bids.isEmpty && !m.asks.isEmpty) = true := h
      clear h
      rename' h2 => h
      have hle : ba ≤ bb := by
        by_cases hq : ba ≤ bb
        · exact hq
        · exfalso
          have hd : decide (ba ≤ bb) = false := by simp [hq]
          rw [hd] at h
          simp at h
      have hb1 : m.bids.items ≠ [] := by
        intro hq
        have hd : m.bids.isEmpty = true := by
          unfold ArrayQueue.isEmpty
          simp [hq]
        rw [hd] at h
        simp at h
      have ha1 : m.asks.items ≠ [] := by
        intro hq
        have hd : m.asks.isEmpty = true := by
          unfold ArrayQueue.isEmpty
          simp [hq]
        rw [hd] at h
        simp at h
      exact ⟨bb, ba, rfl, rfl, hle, hb1, ha1⟩

theorem aq_pop_some {q : ArrayQueue} {b : Order} {rest : List Order}
    (h : q.items = b :: rest) : q.pop = some (b, { q with items := rest }) := by
  unfold ArrayQueue.pop
  rw [h]

/-- A successful iteration of the bounded Array-Queue matching loop. -/
theorem aq_matchAttempts_go {m : ArrayQueueMatcher}
    (hopt : m.can_match_optimistic = true) {b a : Order}
    {bq aq2 : ArrayQueue} (hpb : m.bids.pop = some (b, bq))
    (hpa : m.asks.pop = some (a, aq2)) (n cnt : Nat) :
    ArrayQueueMatcher.matchAttempts (n + 1) m cnt =
      if a.price ≤ b.price then
        ArrayQueueMatcher.matchAttempts n { m with bids := bq, asks := aq2 }
          (cnt + 1)
      else (cnt, { m with bids := (bq.push b).1, asks := (aq2.push a).1 }) := by
  conv_lhs => unfold ArrayQueueMatcher.matchAttempts
  rw [hopt, hpb, hpa]
  rfl

/-- Behaviour of the bounded matching loop needed for the cached-extrema
invariant: capacities and length bounds are preserved, the match count
never decreases, and when no match happened the cached extrema and queue
lengths are unchanged. -/
theorem aq_matchAttempts_spec : ∀ (n : Nat) (m : ArrayQueueMatcher) (cnt : Nat),
    m.bids.items.length ≤ m.bids.cap → m.asks.items.length ≤ m.asks.cap →
    (ArrayQueueMatcher.matchAttempts n m cnt).2.bids.cap = m.bids.cap ∧
    (ArrayQueueMatcher.matchAttempts n m cnt).2.asks.cap = m.asks.cap ∧
    (ArrayQueueMatcher.matchAttempts n m cnt).2.bids.items.length ≤ m.bids.cap ∧
    (ArrayQueueMatcher.matchAttempts n m cnt).2.asks.items.length ≤ m.asks.cap ∧
    cnt ≤ (ArrayQueueMatcher.matchAttempts n m cnt).1 ∧
    ((ArrayQueueMatcher.matchAttempts n m cnt).1 = cnt →
      (ArrayQueueMatcher.matchAttempts n m cnt).2.best_bid = m.best_bid ∧
      (ArrayQueueMatcher.matchAttempts n m cnt).2.best_ask = m.best_ask ∧
      (ArrayQueueMatcher.matchAttempts n m cnt).2.bids.items.length =
        m.bids.items.length ∧
      (ArrayQueueMatcher.matchAttempts n m cnt).2.asks.items.length =
        m.asks.items.length)
  | 0, m, cnt => by
    intro h1 h2
    exact ⟨rfl, rfl, h1, h2, Nat.le_refl _, fun _ => ⟨rfl, rfl, rfl, rfl⟩⟩
  | n + 1, m, cnt => by
    intro h1 h2
    by_cases hopt : m.can_match_optimistic = true
    · obtain ⟨bb, ba, _, _, _, hbne, hane⟩ := aq_opt_spec hopt
      obtain ⟨b, restb, hob⟩ := List.exists_cons_of_ne_nil hbne
      obtain ⟨a, resta, hoa⟩ := List.exists_cons_of_ne_nil hane
      have hpb := aq_pop_some hob
      have hpa := aq_pop_some hoa
      rw [aq_matchAttempts_go hopt hpb hpa n cnt]
      by_cases hcross : a.price ≤ b.price
      · rw [if_pos hcross]
        have hlb : restb.length ≤ m.bids.cap := by
          rw [hob] at h1
          simp only [List.length_cons] at h1
          omega
        have hla : resta.length ≤ m.asks.cap := by
          rw [hoa] at h2
          simp only [List.length_cons] at h2
          omega
        have ih := aq_matchAttempts_spec n
          { m with bids := { m.bids with items := restb }
                   asks := { m.asks with items := resta } } (cnt + 1) hlb hla
        dsimp only at ih ⊢
        refine ⟨ih.1, ih.2.1, ih.2.2.1, ih.2.2.2.1, by
          have hcc := ih.2.2.2.2.1
          omega, ?_⟩
        intro hcnt
        exfalso
        have hcc := ih.2.2.2.2.1
        omega
      · rw [if_neg hcross]
        have hlb : restb.length < m.bids.cap := by
          rw [hob] at h1
          simp only [List.length_cons] at h1
          omega
        have hla : resta.length < m.asks.cap := by
          rw [hoa] at h2
          simp only [List.length_cons] at h2
          omega
        have hpushb : (ArrayQueue.push { m.bids with items := restb } b) =
            ({ m.bids with items := restb ++ [b] }, true) := by
          unfold ArrayQueue.push
          rw [if_pos (by simpa using hlb)]
        have hpusha : (ArrayQueue.push { m.asks with items := resta } a) =
            ({ m.asks with items := resta ++ [a] }, true) := by
          unfold ArrayQueue.push
          rw [if_pos (by simpa using hla)]
        rw [hpushb, hpusha]
        have hleb : (restb ++ [b]).length = m.bids.items.length := by
          rw [hob]
          simp
        have hlea : (resta ++ [a]).length = m.asks.items.length := by
          rw [hoa]
          simp
        exact ⟨rfl, rfl, by simp only [hleb]; exact h1,
          by simp only [hlea]; exact h2, Nat.le_refl _,
          fun _ => ⟨rfl, rfl, hleb, hlea⟩⟩
    · rw [aq_matchAttempts_stop n m cnt (by simpa using hopt)]
      exact ⟨rfl, rfl, h1, h2, Nat.le_refl _, fun _ => ⟨rfl, rfl, rfl, rfl⟩⟩

theorem aq_new_inv : ArrayQueueMatcher.new.inv := by
  refine ⟨?_, ?_, ?_, ?_, ?_, ?_⟩ <;> simp [ArrayQueueMatcher.new, ArrayQueue.new,
    DEFAULT_QUEUE_SIZE]

theorem aq_add_inv (m : ArrayQueueMatcher) (o : Order) (h : m.inv) :
    (m.add_order o).1.inv := by
  obtain ⟨hb, ha, hcb, hca, hlb, hla⟩ := h
  unfold ArrayQueueMatcher.add_order
  cases hside : o.order_type with
  | Buy =>
    by_cases hp : m.bids.items.length < m.bids.cap
    · have hpush : m.bids.push o = ({ m.bids with items := m.bids.items ++ [o] }, true) := by
        unfold ArrayQueue.push
        rw [if_pos hp]
      simp only [hpush]
      refine ⟨by simp, ?_, hcb, hca, by simp; omega, hla⟩
      intro hs
      exact ha hs
    · have hpush : m.bids.push o = (m.bids, false) := by
        unfold ArrayQueue.push
        rw [if_neg hp]
      simp only [hpush]
      exact ⟨hb, ha, hcb, hca, hlb, hla⟩
  | Sell =>
    by_cases hp : m.asks.items.length < m.asks.cap
    · have hpush : m.asks.push o = ({ m.asks with items := m.asks.items ++ [o] }, true) := by
        unfold ArrayQueue.push
        rw [if_pos hp]
      simp only [hpush]
      refine ⟨?_, by simp, hcb, hca, hlb, by simp; omega⟩
      intro hs
      exact hb hs
    · have hpush : m.asks.push o = (m.asks, false) := by
        unfold ArrayQueue.push
        rw [if_neg hp]
      simp only [hpush]
      exact ⟨hb, ha, hcb, hca, hlb, hla⟩

theorem aq_force_push_facts (q : ArrayQueue) (o : Order) (hc : q.cap ≠ 0)
    (hl : q.items.length ≤ q.cap) :
    (q.force_push o).items ≠ [] ∧ (q.force_push o).cap = q.cap ∧
    (q.force_push o).items.length ≤ q.cap := by
  unfold ArrayQueue.force_push
  by_cases hp : q.items.length < q.cap
  · rw [if_pos hp]
    refine ⟨by simp, rfl, by simp; omega⟩
  · rw [if_neg hp, if_neg hc]
    have ht : q.items.tail.length = q.items.length - 1 := List.length_tail _
    refine ⟨by simp, rfl, ?_⟩
    simp only [List.length_append, List.length_singleton, ht]
    omega

theorem aq_addU_inv (m : ArrayQueueMatcher) (o : Order) (h : m.inv) :
    (m.add_order_unchecked o).inv := by
  obtain ⟨hb, ha, hcb, hca, hlb, hla⟩ := h
  unfold ArrayQueueMatcher.add_order_unchecked
  cases hside : o.order_type with
  | Buy =>
    obtain ⟨f1, f2, f3⟩ := aq_force_push_facts m.bids o hcb hlb
    exact ⟨fun _ => f1, ha, by rw [f2]; exact hcb, hca, by rw [f2]; exact f3, hla⟩
  | Sell =>
    obtain ⟨f1, f2, f3⟩ := aq_force_push_facts m.asks o hca hla
    exact ⟨hb, fun _ => f1, hcb, by rw [f2]; exact hca, hlb, by rw [f2]; exact f3⟩

theorem aq_match_orders_inv (m : ArrayQueueMatcher) (h : m.inv) :
    (m.match_orders).2.inv := by
  obtain ⟨hb, ha, hcb, hca, hlb, hla⟩ := h
  have hs := aq_matchAttempts_spec ArrayQueueMatcher.max_matches m 0 hlb hla
  by_cases hr : 0 <
      (ArrayQueueMatcher.matchAttempts ArrayQueueMatcher.max_matches m 0).1
  · have heq : m.match_orders =
        ((ArrayQueueMatcher.matchAttempts ArrayQueueMatcher.max_matches m 0).1,
          ((ArrayQueueMatcher.matchAttempts
              ArrayQueueMatcher.max_matches m 0).2).recalculate_best_prices) := by
      unfold ArrayQueueMatcher.match_orders
      rw [if_pos hr]
    rw [heq]
    refine ⟨by intro hx; exact absurd hx (by simp [ArrayQueueMatcher.recalculate_best_prices]),
      by intro hx; exact absurd hx (by simp [ArrayQueueMatcher.recalculate_best_prices]),
      ?_, ?_, ?_, ?_⟩
    · show (ArrayQueueMatcher.matchAttempts
        ArrayQueueMatcher.max_matches m 0).2.bids.cap ≠ 0
      rw [hs.1]; exact hcb
    · show (ArrayQueueMatcher.matchAttempts
        ArrayQueueMatcher.max_matches m 0).2.asks.cap ≠ 0
      rw [hs.2.1]; exact hca
    · show (ArrayQueueMatcher.matchAttempts
          ArrayQueueMatcher.max_matches m 0).2.bids.items.length ≤
        (ArrayQueueMatcher.matchAttempts
          ArrayQueueMatcher.max_matches m 0).2.bids.cap
      rw [hs.1]; exact hs.2.2.1
    · show (ArrayQueueMatcher.matchAttempts
          ArrayQueueMatcher.max_matches m 0).2.asks.items.length ≤
        (ArrayQueueMatcher.matchAttempts
          ArrayQueueMatcher.max_matches m 0).2.asks.cap
      rw [hs.2.1]; exact hs.2.2.2.1
  · have heq : m.match_orders =
        ArrayQueueMatcher.matchAttempts ArrayQueueMatcher.max_matches m 0 := by
      unfold ArrayQueueMatcher.match_orders
      rw [if_neg hr]
    rw [heq]
    have hcnt : (ArrayQueueMatcher.matchAttempts
        ArrayQueueMatcher.max_matches m 0).1 = 0 := by omega
    obtain ⟨e1, e2, e3, e4⟩ := hs.2.2.2.2.2 hcnt
    refine ⟨?_, ?_, by rw [hs.1]; exact hcb, by rw [hs.2.1]; exact hca,
      by rw [hs.1]; exact hs.2.2.1, by rw [hs.2.1]; exact hs.2.2.2.1⟩
    · rw [e1]
      intro hx
      have := hb hx
      intro he
      rw [he] at e3
      simp at e3
      exact this (List.length_eq_zero.mp e3.symm)
    · rw [e2]
      intro hx
      have := ha hx
      intro he
      rw [he] at e4
      simp at e4
      exact this (List.length_eq_zero.mp e4.symm)


/-! ## Equivalence of the HashMap and Priority-Queue matchers -/

theorem id_unique_mem : ∀ {l : List Order},
    l.Pairwise (fun a b => a.id ≠ b.id) →
    ∀ {x y : Order}, x ∈ l → y ∈ l → x.id = y.id → x = y
  | [], _, x, y, hx, _, _ => absurd hx (by simp)
  | a :: t, hn, x, y, hx, hy, hid => by
    rw [List.pairwise_cons] at hn
    rcases List.mem_cons.mp hx with hx1 | hx1
    · rcases List.mem_cons.mp hy with hy1 | hy1
      · rw [hx1, hy1]
      · subst hx1
        exact absurd hid (hn.1 y hy1)
    · rcases List.mem_cons.mp hy with hy1 | hy1
      · subst hy1
        exact absurd hid.symm (hn.1 x hx1)
      · exact id_unique_mem hn.2 hx1 hy1 hid

theorem isMaxPrice_unique {l : List Order} {p q : Nat}
    (h1 : isMaxPrice l p) (h2 : isMaxPrice l q) : p = q := by
  obtain ⟨⟨o1, ho1, hp1⟩, hub1⟩ := h1
  obtain ⟨⟨o2, ho2, hp2⟩, hub2⟩ := h2
  have ha := hub1 o2 ho2
  have hb := hub2 o1 ho1
  omega

theorem isMinPrice_unique {l : List Order} {p q : Nat}
    (h1 : isMinPrice l p) (h2 : isMinPrice l q) : p = q := by
  obtain ⟨⟨o1, ho1, hp1⟩, hub1⟩ := h1
  obtain ⟨⟨o2, ho2, hp2⟩, hub2⟩ := h2
  have ha := hub1 o2 ho2
  have hb := hub2 o1 ho1
  omega

theorem isMaxPrice_perm {l l' : List Order} (h : l.Perm l') {p : Nat}
    (hm : isMaxPrice l p) : isMaxPrice l' p := by
  obtain ⟨⟨o, ho, hp⟩, hub⟩ := hm
  exact ⟨⟨o, h.mem_iff.mp ho, hp⟩, fun x hx => hub x (h.mem_iff.mpr hx)⟩

theorem isMinPrice_perm {l l' : List Order} (h : l.Perm l') {p : Nat}
    (hm : isMinPrice l p) : isMinPrice l' p := by
  obtain ⟨⟨o, ho, hp⟩, hub⟩ := hm
  exact ⟨⟨o, h.mem_iff.mp ho, hp⟩, fun x hx => hub x (h.mem_iff.mpr hx)⟩

/-- Under well-formedness and identifier-sorted FIFOs, the order the
HashMap loop pops from the best bid level is `bidCmp`-maximal among all
resting bids. -/
theorem hm_pop_best_bid_maximal {m : HashMapMatcher} (hw : m.bid_levels.WF)
    (hid : m.bid_levels.idSorted) {bp : Nat} (hb : m.get_best_bid = some bp)
    {lv : PriceLevel} (hg : Levels.get m.bid_levels bp = some lv)
    {b : Order} {rest : List Order} (ho : lv.orders = b :: rest) :
    b ∈ m.bid_levels.flat ∧
    ∀ x ∈ m.bid_levels.flat, bidCmp b x ≠ Ordering.lt := by
  have hmem : (bp, lv) ∈ m.bid_levels :=
    alGet_mem (by rw [← levels_get_eq_alGet]; exact hg)
  have hbmem : b ∈ m.bid_levels.flat :=
    levels_mem_flat.mpr ⟨(bp, lv), hmem, by rw [ho]; exact List.mem_cons_self _ _⟩
  have hbp : b.price = bp :=
    (hw.2 (bp, lv) hmem).2.2 b (by rw [ho]; exact List.mem_cons_self _ _)
  obtain ⟨hmax, _⟩ := hm_best_bid_spec hw hb
  refine ⟨hbmem, ?_⟩
  intro x hx
  obtain ⟨⟨q, lw⟩, hqw, hxw⟩ := levels_mem_flat.mp hx
  have hxq : x.price = q := (hw.2 (q, lw) hqw).2.2 x hxw
  have hxle : x.price ≤ bp := hmax.2 x hx
  by_cases hq : x.price = bp
  · -- same best level: `x` is `b` or sits behind it with a larger id
    have hgq : Levels.get m.bid_levels q = some lw := levels_get_of_mem hw.1 hqw
    have hqbp : q = bp := by omega
    rw [hqbp] at hgq
    have hlw : lw = lv := by
      rw [hg] at hgq
      injection hgq with hinj
      exact hinj.symm
    rw [hlw, ho] at hxw
    rcases List.mem_cons.mp hxw with hx1 | hx1
    · rw [hx1]
      exact bidCmp_refl_not_lt b
    · have hpw : lv.orders.Pairwise (fun a c => a.id < c.id) :=
        hid (bp, lv) hmem
      rw [ho, List.pairwise_cons] at hpw
      have hlt := hpw.1 x hx1
      rw [Ne, bidCmp_lt_iff]
      omega
  · rw [Ne, bidCmp_lt_iff]
    omega

/-- Ask-side analogue. -/
theorem hm_pop_best_ask_maximal {m : HashMapMatcher} (hw : m.ask_levels.WF)
    (hid : m.ask_levels.idSorted) {ap : Nat} (ha : m.get_best_ask = some ap)
    {lv : PriceLevel} (hg : Levels.get m.ask_levels ap = some lv)
    {a : Order} {rest : List Order} (ho : lv.orders = a :: rest) :
    a ∈ m.ask_levels.flat ∧
    ∀ x ∈ m.ask_levels.flat, askCmp a x ≠ Ordering.lt := by
  have hmem : (ap, lv) ∈ m.ask_levels :=
    alGet_mem (by rw [← levels_get_eq_alGet]; exact hg)
  have hamem : a ∈ m.ask_levels.flat :=
    levels_mem_flat.mpr ⟨(ap, lv), hmem, by rw [ho]; exact List.mem_cons_self _ _⟩
  have hap : a.price = ap :=
    (hw.2 (ap, lv) hmem).2.2 a (by rw [ho]; exact List.mem_cons_self _ _)
  obtain ⟨hmin, _⟩ := hm_best_ask_spec hw ha
  refine ⟨hamem, ?_⟩
  intro x hx
  obtain ⟨⟨q, lw⟩, hqw, hxw⟩ := levels_mem_flat.mp hx
  have hxq : x.price = q := (hw.2 (q, lw) hqw).2.2 x hxw
  have hxle : ap ≤ x.price := hmin.2 x hx
  by_cases hq : x.price = ap
  · have hgq : Levels.get m.ask_levels q = some lw := levels_get_of_mem hw.1 hqw
    have hqap : q = ap := by omega
    rw [hqap] at hgq
    have hlw : lw = lv := by
      rw [hg] at hgq
      injection hgq with hinj
      exact hinj.symm
    rw [hlw, ho] at hxw
    rcases List.mem_cons.mp hxw with hx1 | hx1
    · rw [hx1]
      exact askCmp_refl_not_lt a
    · have hpw : lv.orders.Pairwise (fun c d => c.id < d.id) :=
        hid (ap, lv) hmem
      rw [ho, List.pairwise_cons] at hpw
      have hlt := hpw.1 x hx1
      rw [Ne, askCmp_lt_iff]
      omega
  · rw [Ne, askCmp_lt_iff]
    omega

/-- Two maximal elements of permutation-equal order lists with globally
distinct identifiers coincide (bid order). -/
theorem bid_pick_eq {flat pqb : List Order} (hperm : flat.Perm pqb)
    (hn : pqb.Pairwise (fun a b => a.id ≠ b.id)) {b r : Order}
    (hbmem : b ∈ flat) (hbmax : ∀ x ∈ flat, bidCmp b x ≠ Ordering.lt)
    (hrmem : r ∈ pqb) (hrmax : ∀ x ∈ pqb, bidCmp r x ≠ Ordering.lt) :
    b = r := by
  have hb2 : b ∈ pqb := hperm.mem_iff.mp hbmem
  have hr2 : r ∈ flat := hperm.mem_iff.mpr hrmem
  have h1 : bidCmp b r ≠ Ordering.lt := hbmax r hr2
  have h2 : bidCmp r b ≠ Ordering.lt := hrmax b hb2
  have heq := bidCmp_eq_of_not_lt h1 h2
  rw [bidCmp_eq_iff] at heq
  exact id_unique_mem hn hb2 hrmem heq.2

/-- Ask-order analogue. -/
theorem ask_pick_eq {flat pqa : List Order} (hperm : flat.Perm pqa)
    (hn : pqa.Pairwise (fun a b => a.id ≠ b.id)) {a r : Order}
    (hamem : a ∈ flat) (hamax : ∀ x ∈ flat, askCmp a x ≠ Ordering.lt)
    (hrmem : r ∈ pqa) (hrmax : ∀ x ∈ pqa, askCmp r x ≠ Ordering.lt) :
    a = r := by
  have ha2 : a ∈ pqa := hperm.mem_iff.mp hamem
  have hr2 : r ∈ flat := hperm.mem_iff.mpr hrmem
  have h1 : askCmp a r ≠ Ordering.lt := hamax r hr2
  have h2 : askCmp r a ≠ Ordering.lt := hrmax a ha2
  have heq := askCmp_eq_of_not_lt h1 h2
  rw [askCmp_eq_iff] at heq
  exact id_unique_mem hn ha2 hrmem heq.2

theorem levels_flat_nil_iff {levels : Levels} (hw : levels.WF) :
    levels.flat = [] ↔ levels = [] := by
  constructor
  · intro h
    cases hl : levels with
    | nil => rfl
    | cons e tl =>
      exfalso
      have hne : e.2.orders ≠ [] := (hw.2 e (by rw [hl]; exact List.mem_cons_self _ _)).1
      obtain ⟨o, ho⟩ := List.exists_mem_of_ne_nil _ hne
      have : o ∈ levels.flat :=
        levels_mem_flat.mpr ⟨e, by rw [hl]; exact List.mem_cons_self _ _, ho⟩
      rw [h] at this
      exact absurd this (by simp)
  · intro h
    rw [h]
    rfl

/-- A popped heap maximum realises the maximum price of the list (bid
order). -/
theorem heapPop_bid_isMax {l : List Order} {r : Order} {rest : List Order}
    (hp : heapPop bidCmp l = some (r, rest)) : isMaxPrice l r.price := by
  have hperm := heapPop_perm bidCmp l r rest hp
  have hmax := heapPop_maximal bidCmp bidCmp_refl_not_lt
    (fun x y h => bidCmp_asymm h) (fun x y z h h' => bidCmp_not_lt_trans h h')
    l r rest hp
  refine ⟨⟨r, hperm.mem_iff.mpr (List.mem_cons_self _ _), rfl⟩, ?_⟩
  intro x hx
  have := hmax x hx
  rw [Ne, bidCmp_lt_iff] at this
  omega

/-- Ask-side analogue: the popped maximum realises the minimum price. -/
theorem heapPop_ask_isMin {l : List Order} {r : Order} {rest : List Order}
    (hp : heapPop askCmp l = some (r, rest)) : isMinPrice l r.price := by
  have hperm := heapPop_perm askCmp l r rest hp
  have hmax := heapPop_maximal askCmp askCmp_refl_not_lt
    (fun x y h => askCmp_asymm h) (fun x y z h h' => askCmp_not_lt_trans h h')
    l r rest hp
  refine ⟨⟨r, hperm.mem_iff.mpr (List.mem_cons_self _ _), rfl⟩, ?_⟩
  intro x hx
  have := hmax x hx
  rw [Ne, askCmp_lt_iff] at this
  omega

/-- Under the coupling invariant, the HashMap best bid equals the cached
Priority-Queue best bid. -/
theorem rel_best_bid_eq {hm : HashMapMatcher} {pq : PriorityQueueMatcher}
    (R : MatcherRel hm pq) : hm.get_best_bid = pq.best_bid := by
  cases hb : hm.get_best_bid with
  | none =>
    have h1 : hm.bid_levels = [] := (hm_best_bid_none_iff R.wfB).mp hb
    have h2 : pq.bids = [] := by
      have := R.permB
      rw [h1] at this
      exact this.symm.eq_nil
    rw [R.cache.1, h2]
    rfl
  | some bp =>
    obtain ⟨hmax, _⟩ := hm_best_bid_spec R.wfB hb
    have hne : pq.bids ≠ [] := by
      intro he
      obtain ⟨o, ho, _⟩ := hmax.1
      have hmem := R.permB.mem_iff.mp ho
      rw [he] at hmem
      exact absurd hmem (by simp)
    obtain ⟨⟨r, rest⟩, hp⟩ : ∃ x, heapPop bidCmp pq.bids = some x := by
      cases hx : heapPop bidCmp pq.bids with
      | none => rw [heapPop_eq_none_iff] at hx; exact absurd hx hne
      | some x => exact ⟨x, rfl⟩
    have hmax2 : isMaxPrice hm.bid_levels.flat r.price :=
      isMaxPrice_perm R.permB.symm (heapPop_bid_isMax hp)
    have hpr : bp = r.price := isMaxPrice_unique hmax hmax2
    rw [R.cache.1]
    unfold heapPeek
    rw [hp]
    simp [hpr]
  
/-- Ask-side analogue. -/
theorem rel_best_ask_eq {hm : HashMapMatcher} {pq : PriorityQueueMatcher}
    (R : MatcherRel hm pq) : hm.get_best_ask = pq.best_ask := by
  cases ha : hm.get_best_ask with
  | none =>
    have h1 : hm.ask_levels = [] := (hm_best_ask_none_iff R.wfA).mp ha
    have h2 : pq.asks = [] := by
      have := R.permA
      rw [h1] at this
      exact this.symm.eq_nil
    rw [R.cache.2, h2]
    rfl
  | some ap =>
    obtain ⟨hmin, _⟩ := hm_best_ask_spec R.wfA ha
    have hne : pq.asks ≠ [] := by
      intro he
      obtain ⟨o, ho, _⟩ := hmin.1
      have hmem := R.permA.mem_iff.mp ho
      rw [he] at hmem
      exact absurd hmem (by simp)
    obtain ⟨⟨r, rest⟩, hp⟩ : ∃ x, heapPop askCmp pq.asks = some x := by
      cases hx : heapPop askCmp pq.asks with
      | none => rw [heapPop_eq_none_iff] at hx; exact absurd hx hne
      | some x => exact ⟨x, rfl⟩
    have hmin2 : isMinPrice hm.ask_levels.flat r.price :=
      isMinPrice_perm R.permA.symm (heapPop_ask_isMin hp)
    have hpr : ap = r.price := isMinPrice_unique hmin hmin2
    rw [R.cache.2]
    unfold heapPeek
    rw [hp]
    simp [hpr]

theorem rel_can_match_eq {hm : HashMapMatcher} {pq : PriorityQueueMatcher}
    (R : MatcherRel hm pq) : hm.can_match = pq.can_match := by
  unfold HashMapMatcher.can_match PriorityQueueMatcher.can_match
  rw [rel_best_bid_eq R, rel_best_ask_eq R]

/-- Adding an order whose identifier exceeds every resting identifier keeps
every level FIFO sorted by identifier. -/
theorem levels_idSorted_add : ∀ (levels : Levels) (o : Order),
    levels.idSorted → (∀ x ∈ levels.flat, x.id < o.id) →
    (levels.add o.price o).idSorted
  | [], o => by
    intro _ _
    intro e he
    have he' : e = (o.price, PriceLevel.new.push_back o) := by
      simpa [Levels.add] using he
    rw [he']
    simp [PriceLevel.push_back, PriceLevel.new]
  | (q, lv) :: tl, o => by
    intro hid hfresh
    have hmemc : ∀ x, x ∈ lv.orders ∨ x ∈ Levels.flat tl →
        x ∈ Levels.flat ((q, lv) :: tl) := by
      intro x hx
      unfold Levels.flat at hx ⊢
      rw [List.flatMap_cons, List.mem_append]
      exact hx
    show Levels.idSorted (Levels.add ((q, lv) :: tl) o.price o)
    unfold Levels.add
    by_cases h1 : o.price < q
    · rw [if_pos h1]
      intro e he
      rcases List.mem_cons.mp he with rfl | he2
      · simp [PriceLevel.push_back, PriceLevel.new]
      · exact hid e he2
    · rw [if_neg h1]
      by_cases h2 : o.price = q
      · rw [if_pos h2]
        intro e he
        rcases List.mem_cons.mp he with rfl | he2
        · have hp : lv.orders.Pairwise (fun a b => a.id < b.id) :=
            hid (q, lv) (List.mem_cons_self _ _)
          have hall : ∀ x ∈ lv.orders, x.id < o.id := fun x hx =>
            hfresh x (hmemc x (Or.inl hx))
          show (lv.orders ++ [o]).Pairwise (fun a b => a.id < b.id)
          refine List.pairwise_append.mpr ⟨hp, by simp, ?_⟩
          intro x hx y hy
          rw [List.mem_singleton] at hy
          subst hy
          exact hall x hx
        · exact hid e (List.mem_cons_of_mem _ he2)
      · rw [if_neg h2]
        intro e he
        rcases List.mem_cons.mp he with rfl | he2
        · exact hid (q, lv) (List.mem_cons_self _ _)
        · exact levels_idSorted_add tl o
            (fun e' he' => hid e' (List.mem_cons_of_mem _ he'))
            (fun x hx => hfresh x (hmemc x (Or.inr hx))) e he2

/-- The coupling invariant is preserved by adding one fresh-identifier
order to both matchers. -/
theorem rel_add {hm : HashMapMatcher} {pq : PriorityQueueMatcher}
    (R : MatcherRel hm pq) (o : Order)
    (hfresh : ∀ x ∈ pq.bids ++ pq.asks, x.id < o.id) :
    MatcherRel (hm.add_order o) (pq.add_order o) := by
  have hfb : ∀ x ∈ hm.bid_levels.flat, x.id < o.id := fun x hx =>
    hfresh x (List.mem_append.mpr (Or.inl (R.permB.mem_iff.mp hx)))
  have hfa : ∀ x ∈ hm.ask_levels.flat, x.id < o.id := fun x hx =>
    hfresh x (List.mem_append.mpr (Or.inr (R.permA.mem_iff.mp hx)))
  have hcache := pq_cacheInv_add pq o R.cache
  have hn0 : (o :: (pq.bids ++ pq.asks)).Pairwise (fun a b => a.id ≠ b.id) :=
    List.pairwise_cons.mpr
      ⟨fun y hy => by have := hfresh y hy; omega, R.nodup⟩
  unfold HashMapMatcher.add_order PriorityQueueMatcher.add_order
  unfold PriorityQueueMatcher.add_order at hcache
  cases h : o.order_type with
  | Buy =>
    simp only [h] at hcache ⊢
    exact ⟨levels_WF_add o R.wfB, R.wfA,
      levels_idSorted_add hm.bid_levels o R.idsB hfb, R.idsA,
      (levels_flat_add_perm hm.bid_levels o.price o).trans (R.permB.cons o),
      R.permA, hn0, hcache⟩
  | Sell =>
    simp only [h] at hcache ⊢
    refine ⟨R.wfB, levels_WF_add o R.wfA, R.idsB,
      levels_idSorted_add hm.ask_levels o R.idsA hfa, R.permB,
      (levels_flat_add_perm hm.ask_levels o.price o).trans (R.permA.cons o),
      ?_, hcache⟩
    exact (List.Perm.pairwise_iff (fun h' => Ne.symm h')
      (@List.perm_middle Order o pq.bids pq.asks)).mpr hn0

/-- The two empty matchers are coupled. -/
theorem rel_new : MatcherRel HashMapMatcher.new PriorityQueueMatcher.new := by
  refine ⟨levels_WF_nil, levels_WF_nil, ?_, ?_, ?_, ?_, ?_, pq_cacheInv_new⟩
  · intro e he; exact absurd he (by simp [HashMapMatcher.new])
  · intro e he; exact absurd he (by simp [HashMapMatcher.new])
  · exact List.Perm.refl _
  · exact List.Perm.refl _
  · simp [PriorityQueueMatcher.new]

/-- Folding the same order sequence (with identifiers above everything
resting, assigned in arrival order) into coupled matchers keeps them
coupled. -/
theorem rel_fold : ∀ (os : List Order) (hm : HashMapMatcher)
    (pq : PriorityQueueMatcher), MatcherRel hm pq →
    (∀ x ∈ pq.bids ++ pq.asks, ∀ o ∈ os, x.id < o.id) →
    os.Pairwise (fun a b => a.id < b.id) →
    MatcherRel (os.foldl HashMapMatcher.add_order hm)
      (os.foldl PriorityQueueMatcher.add_order pq)
  | [], hm, pq => by intro R _ _; exact R
  | o :: os', hm, pq => by
    intro R hf hp
    rw [List.foldl_cons, List.foldl_cons]
    have R' := rel_add R o (fun x hx => hf x hx o (List.mem_cons_self _ _))
    refine rel_fold os' _ _ R' ?_ (List.pairwise_cons.mp hp).2
    intro x hx o' ho'
    have hx' : x = o ∨ x ∈ pq.bids ++ pq.asks := by
      unfold PriorityQueueMatcher.add_order at hx
      cases h : o.order_type with
      | Buy =>
        simp only [h] at hx
        rw [List.cons_append, List.mem_cons] at hx
        exact hx
      | Sell =>
        simp only [h] at hx
        rcases List.mem_append.mp hx with h1 | h1
        · exact Or.inr (List.mem_append.mpr (Or.inl h1))
        · rcases List.mem_cons.mp h1 with h2 | h2
          · exact Or.inl h2
          · exact Or.inr (List.mem_append.mpr (Or.inr h2))
    rcases hx' with rfl | hx'
    · exact (List.pairwise_cons.mp hp).1 o' ho'
    · exact hf x hx' o' (List.mem_cons_of_mem _ ho')

/-- Identifiers assigned in arrival order couple the two backends built
from the same order sequence. -/
theorem rel_ofList (os : List Order)
    (h : os.Pairwise (fun a b => a.id < b.id)) :
    MatcherRel (HashMapMatcher.ofList os) (PriorityQueueMatcher.ofList os) :=
  rel_fold os HashMapMatcher.new PriorityQueueMatcher.new rel_new
    (fun x hx => absurd hx (by simp [PriorityQueueMatcher.new])) h

/-- The two matching loops run in lockstep on coupled states: they record
identical matched-pair lists and finish in coupled states. -/
theorem matchLoop_lockstep : ∀ (fuel : Nat) (hm : HashMapMatcher)
    (pq : PriorityQueueMatcher), MatcherRel hm pq → hm.size < fuel →
    (HashMapMatcher.matchLoop fuel hm).1 =
      (PriorityQueueMatcher.matchLoop fuel pq).1 ∧
    MatcherRel (HashMapMatcher.matchLoop fuel hm).2
      (PriorityQueueMatcher.matchLoop fuel pq).2
  | 0, hm, pq => by intro _ hf; exact absurd hf (by omega)
  | fuel + 1, hm, pq => by
    intro R hf
    by_cases hcm : hm.can_match = false
    · have hcm2 : pq.can_match = false := by rw [← rel_can_match_eq R]; exact hcm
      rw [hmMatchLoop_no_cross fuel hm hcm, pqMatchLoop_not_can_match fuel pq hcm2]
      exact ⟨rfl, R⟩
    · rw [Bool.not_eq_false] at hcm
      have hcm2 : pq.can_match = true := by rw [← rel_can_match_eq R]; exact hcm
      have hcm' := hcm
      unfold HashMapMatcher.can_match at hcm'
      obtain ⟨bp, hb⟩ : ∃ bp, hm.get_best_bid = some bp := by
        cases hx : hm.get_best_bid with
        | none => rw [hx] at hcm'; simp at hcm'
        | some bp => exact ⟨bp, rfl⟩
      obtain ⟨ap, ha⟩ : ∃ ap, hm.get_best_ask = some ap := by
        cases hx : hm.get_best_ask with
        | none =>
          rw [hx] at hcm'
          cases hy : hm.get_best_bid <;> rw [hy] at hcm' <;> simp at hcm'
        | some ap => exact ⟨ap, rfl⟩
      rw [hb, ha] at hcm'
      have hle : ap ≤ bp := by simpa using hcm'
      obtain ⟨_, lvb, hgb⟩ := hm_best_bid_spec R.wfB hb
      obtain ⟨_, lva, hga⟩ := hm_best_ask_spec R.wfA ha
      obtain ⟨b, restb, hob, hpb1, hbp, hwb', hpermb, hordb, hgetb, hidb⟩ :=
        levels_pop_cleanup R.wfB hgb
      obtain ⟨a, resta, hoa, hpa1, hap, hwa', hperma, horda, hgeta, hida⟩ :=
        levels_pop_cleanup R.wfA hga
      have hpb : hm.bid_levels.popAt bp = (some b, (hm.bid_levels.popAt bp).2) := by
        rw [← hpb1]
      have hpa : hm.ask_levels.popAt ap = (some a, (hm.ask_levels.popAt ap).2) := by
        rw [← hpa1]
      have hbmax := hm_pop_best_bid_maximal R.wfB R.idsB hb hgb hob
      have hamax := hm_pop_best_ask_maximal R.wfA R.idsA ha hga hoa
      obtain ⟨⟨rb, bids2⟩, hqb⟩ : ∃ x, heapPop bidCmp pq.bids = some x := by
        cases hx : heapPop bidCmp pq.bids with
        | none =>
          rw [heapPop_eq_none_iff] at hx
          have hmem := R.permB.mem_iff.mp hbmax.1
          rw [hx] at hmem
          exact absurd hmem (by simp)
        | some x => exact ⟨x, rfl⟩
      obtain ⟨⟨ra, asks2⟩, hqa⟩ : ∃ x, heapPop askCmp pq.asks = some x := by
        cases hx : heapPop askCmp pq.asks with
        | none =>
          rw [heapPop_eq_none_iff] at hx
          have hmem := R.permA.mem_iff.mp hamax.1
          rw [hx] at hmem
          exact absurd hmem (by simp)
        | some x => exact ⟨x, rfl⟩
      have hnb : pq.bids.Pairwise (fun x y => x.id ≠ y.id) :=
        (List.pairwise_append.mp R.nodup).1
      have hna : pq.asks.Pairwise (fun x y => x.id ≠ y.id) :=
        (List.pairwise_append.mp R.nodup).2.1
      have hqbperm := heapPop_perm bidCmp pq.bids rb bids2 hqb
      have hqaperm := heapPop_perm askCmp pq.asks ra asks2 hqa
      have hrbmax := heapPop_maximal bidCmp bidCmp_refl_not_lt
        (fun x y h => bidCmp_asymm h)
        (fun x y z h h' => bidCmp_not_lt_trans h h') pq.bids rb bids2 hqb
      have hramax := heapPop_maximal askCmp askCmp_refl_not_lt
        (fun x y h => askCmp_asymm h)
        (fun x y z h h' => askCmp_not_lt_trans h h') pq.asks ra asks2 hqa
      have hbeq : b = rb := bid_pick_eq R.permB hnb hbmax.1 hbmax.2
        (hqbperm.mem_iff.mpr (List.mem_cons_self _ _)) hrbmax
      have haeq : a = ra := ask_pick_eq R.permA hna hamax.1 hamax.2
        (hqaperm.mem_iff.mpr (List.mem_cons_self _ _)) hramax
      subst hbeq
      subst haeq
      rw [hmMatchLoop_step hb ha hle hpb hpa fuel,
        pqMatchLoop_step hcm2 hqb hqa fuel]
      have hsz : HashMapMatcher.size
          { bid_levels := (hm.bid_levels.popAt bp).2.removeIfEmpty bp
            ask_levels := (hm.ask_levels.popAt ap).2.removeIfEmpty ap } < fuel := by
        have h1 := hpermb.length_eq
        have h2 := hperma.length_eq
        simp only [List.length_cons] at h1 h2
        unfold HashMapMatcher.size at hf ⊢
        simp only
        omega
      have R' : MatcherRel
          { bid_levels := (hm.bid_levels.popAt bp).2.removeIfEmpty bp
            ask_levels := (hm.ask_levels.popAt ap).2.removeIfEmpty ap }
          { bids := bids2, asks := asks2
            best_bid := (heapPeek bidCmp bids2).map (fun o => o.price)
            best_ask := (heapPeek askCmp asks2).map (fun o => o.price) } := by
        refine ⟨hwb', hwa', (hidb R.idsB).1, (hida R.idsA).1, ?_, ?_, ?_, rfl, rfl⟩
        · exact ((hpermb.trans R.permB).trans hqbperm).cons_inv
        · exact ((hperma.trans R.permA).trans hqaperm).cons_inv
        · have hpermall : (pq.bids ++ pq.asks).Perm ((b :: bids2) ++ (a :: asks2)) :=
            hqbperm.append hqaperm
          have hn2 : ((b :: bids2) ++ (a :: asks2)).Pairwise
              (fun x y => x.id ≠ y.id) :=
            (hpermall.pairwise_iff (fun h' => Ne.symm h')).mp R.nodup
          have hsub : List.Sublist (bids2 ++ asks2) ((b :: bids2) ++ (a :: asks2)) :=
            List.Sublist.append (List.sublist_cons_self _ _)
              (List.sublist_cons_self _ _)
          exact List.Pairwise.sublist hsub hn2
      have ih := matchLoop_lockstep fuel _ _ R' hsz
      exact ⟨congrArg (List.cons (b, a)) ih.1, ih.2⟩

/-! ## Book-level run lemmas -/

theorem alKeys_map_values {α β : Type} (l : List (Nat × α))
    (f : Nat × α → β) :
    alKeys (l.map (fun e => (e.1, f e))) = alKeys l := by
  induction l with
  | nil => rfl
  | cons hd tl ih =>
    simp only [alKeys, List.map_cons] at ih ⊢
    rw [ih]

theorem hm_runOp_keys (b : HashMapOrderBook) (op : BookOp) :
    alKeys (b.runOp op).matchers = alKeys b.matchers := by
  cases op with
  | add o =>
    unfold HashMapOrderBook.runOp HashMapOrderBook.add_order
    cases hg : alGet b.matchers o.symbol with
    | none => simp only [hg]
    | some matcher =>
      simp only [hg]
      exact alKeys_alSet b.matchers o.symbol (matcher.add_order o)
  | addFast o =>
    unfold HashMapOrderBook.runOp HashMapOrderBook.add_order_fast
    cases hg : alGet b.matchers o.symbol with
    | none => simp only [hg]
    | some matcher =>
      simp only [hg]
      exact alKeys_alSet b.matchers o.symbol (matcher.add_order o)
  | addUnchecked o =>
    unfold HashMapOrderBook.runOp HashMapOrderBook.add_order_unchecked
    cases hg : alGet b.matchers o.symbol with
    | none => simp only [hg]
    | some matcher =>
      simp only [hg]
      exact alKeys_alSet b.matchers o.symbol (matcher.add_order o)
  | matchAll =>
    unfold HashMapOrderBook.runOp HashMapOrderBook.match_orders
    exact alKeys_map_values b.matchers (fun e => (e.2.match_orders).2)

theorem pq_runOp_keys (b : PriorityQueueOrderBook) (op : BookOp) :
    alKeys (b.runOp op).matchers = alKeys b.matchers := by
  cases op with
  | add o =>
    unfold PriorityQueueOrderBook.runOp PriorityQueueOrderBook.add_order
    cases hg : alGet b.matchers o.symbol with
    | none => simp only [hg]
    | some matcher =>
      simp only [hg]
      exact alKeys_alSet b.matchers o.symbol (matcher.add_order o)
  | addFast o =>
    unfold PriorityQueueOrderBook.runOp PriorityQueueOrderBook.add_order_fast
    cases hg : alGet b.matchers o.symbol with
    | none => simp only [hg]
    | some matcher =>
      simp only [hg]
      exact alKeys_alSet b.matchers o.symbol (matcher.add_order o)
  | addUnchecked o =>
    unfold PriorityQueueOrderBook.runOp PriorityQueueOrderBook.add_order_unchecked
    cases hg : alGet b.matchers o.symbol with
    | none => simp only [hg]
    | some matcher =>
      simp only [hg]
      exact alKeys_alSet b.matchers o.symbol (matcher.add_order o)
  | matchAll =>
    unfold PriorityQueueOrderBook.runOp PriorityQueueOrderBook.match_orders
    exact alKeys_map_values b.matchers (fun e => (e.2.match_orders).2)

theorem aq_runOp_keys (b : ArrayQueueOrderBook) (op : BookOp) :
    alKeys (b.runOp op).matchers = alKeys b.matchers := by
  cases op with
  | add o =>
    unfold ArrayQueueOrderBook.runOp ArrayQueueOrderBook.add_order
    cases hg : alGet b.matchers o.symbol with
    | none => simp only [hg]
    | some matcher =>
      simp only [hg]
      exact alKeys_alSet b.matchers o.symbol (matcher.add_order o).1
  | addFast o =>
    unfold ArrayQueueOrderBook.runOp ArrayQueueOrderBook.add_order_fast
    cases hg : alGet b.matchers o.symbol with
    | none => simp only [hg]
    | some matcher =>
      simp only [hg]
      exact alKeys_alSet b.matchers o.symbol (matcher.add_order o).1
  | addUnchecked o =>
    unfold ArrayQueueOrderBook.runOp ArrayQueueOrderBook.add_order_unchecked
    cases hg : alGet b.matchers o.symbol with
    | none => simp only [hg]
    | some matcher =>
      simp only [hg]
      exact alKeys_alSet b.matchers o.symbol (matcher.add_order_unchecked o)
  | matchAll =>
    unfold ArrayQueueOrderBook.runOp ArrayQueueOrderBook.match_orders
    exact alKeys_map_values b.matchers (fun e => (e.2.match_orders).2)

theorem hm_run_keys (syms : List Nat) (ops : List BookOp) :
    alKeys ((HashMapOrderBook.new syms).run ops).matchers = syms := by
  suffices h : ∀ b : HashMapOrderBook,
      alKeys (b.run ops).matchers = alKeys b.matchers by
    rw [h]
    unfold HashMapOrderBook.new
    simp only [alKeys, List.map_map]
    have hcomp : ((fun (e : Nat × HashMapMatcher) => e.1) ∘ (fun s => (s, HashMapMatcher.new))) =
        fun (s : Nat) => s := rfl
    rw [hcomp]
    exact List.map_id syms
  intro b
  induction ops generalizing b with
  | nil => rfl
  | cons op rest ih =>
    unfold HashMapOrderBook.run at ih ⊢
    rw [List.foldl_cons]
    exact (ih (b.runOp op)).trans (hm_runOp_keys b op)

theorem pq_run_keys (syms : List Nat) (ops : List BookOp) :
    alKeys ((PriorityQueueOrderBook.new syms).run ops).matchers = syms := by
  suffices h : ∀ b : PriorityQueueOrderBook,
      alKeys (b.run ops).matchers = alKeys b.matchers by
    rw [h]
    unfold PriorityQueueOrderBook.new
    simp only [alKeys, List.map_map]
    have hcomp : ((fun (e : Nat × PriorityQueueMatcher) => e.1) ∘ (fun s => (s, PriorityQueueMatcher.new))) =
        fun (s : Nat) => s := rfl
    rw [hcomp]
    exact List.map_id syms
  intro b
  induction ops generalizing b with
  | nil => rfl
  | cons op rest ih =>
    unfold PriorityQueueOrderBook.run at ih ⊢
    rw [List.foldl_cons]
    exact (ih (b.runOp op)).trans (pq_runOp_keys b op)

theorem aq_run_keys (syms : List Nat) (ops : List BookOp) :
    alKeys ((ArrayQueueOrderBook.new syms).run ops).matchers = syms := by
  suffices h : ∀ b : ArrayQueueOrderBook,
      alKeys (b.run ops).matchers = alKeys b.matchers by
    rw [h]
    unfold ArrayQueueOrderBook.new
    simp only [alKeys, List.map_map]
    have hcomp : ((fun (e : Nat × ArrayQueueMatcher) => e.1) ∘ (fun s => (s, ArrayQueueMatcher.new))) =
        fun (s : Nat) => s := rfl
    rw [hcomp]
    exact List.map_id syms
  intro b
  induction ops generalizing b with
  | nil => rfl
  | cons op rest ih =>
    unfold ArrayQueueOrderBook.run at ih ⊢
    rw [List.foldl_cons]
    exact (ih (b.runOp op)).trans (aq_runOp_keys b op)

theorem pq_runOp_inv (b : PriorityQueueOrderBook) (op : BookOp)
    (h : ∀ e ∈ b.matchers, e.2.cacheInv) :
    ∀ e ∈ (b.runOp op).matchers, e.2.cacheInv := by
  cases op with
  | add o =>
    unfold PriorityQueueOrderBook.runOp PriorityQueueOrderBook.add_order
    cases hg : alGet b.matchers o.symbol with
    | none => simp only [hg]; exact h
    | some matcher =>
      simp only [hg]
      intro e he
      rcases mem_alSet he with he | he
      · rw [he]
        exact pq_cacheInv_add matcher o (h (o.symbol, matcher) (alGet_mem hg))
      · exact h e he
  | addFast o =>
    unfold PriorityQueueOrderBook.runOp PriorityQueueOrderBook.add_order_fast
    cases hg : alGet b.matchers o.symbol with
    | none => simp only [hg]; exact h
    | some matcher =>
      simp only [hg]
      intro e he
      rcases mem_alSet he with he | he
      · rw [he]
        exact pq_cacheInv_add matcher o (h (o.symbol, matcher) (alGet_mem hg))
      · exact h e he
  | addUnchecked o =>
    unfold PriorityQueueOrderBook.runOp PriorityQueueOrderBook.add_order_unchecked
    cases hg : alGet b.matchers o.symbol with
    | none => simp only [hg]; exact h
    | some matcher =>
      simp only [hg]
      intro e he
      rcases mem_alSet he with he | he
      · rw [he]
        exact pq_cacheInv_add matcher o (h (o.symbol, matcher) (alGet_mem hg))
      · exact h e he
  | matchAll =>
    unfold PriorityQueueOrderBook.runOp PriorityQueueOrderBook.match_orders
    intro e he
    obtain ⟨f, hf, hfe⟩ := List.mem_map.mp he
    rw [← hfe]
    exact (pq_match_orders_spec f.2 (h f hf)).1

theorem aq_runOp_inv (b : ArrayQueueOrderBook) (op : BookOp)
    (h : ∀ e ∈ b.matchers, e.2.inv) :
    ∀ e ∈ (b.runOp op).matchers, e.2.inv := by
  cases op with
  | add o =>
    unfold ArrayQueueOrderBook.runOp ArrayQueueOrderBook.add_order
    cases hg : alGet b.matchers o.symbol with
    | none => simp only [hg]; exact h
    | some matcher =>
      simp only [hg]
      intro e he
      rcases mem_alSet he with he | he
      · rw [he]
        exact aq_add_inv matcher o (h (o.symbol, matcher) (alGet_mem hg))
      · exact h e he
  | addFast o =>
    unfold ArrayQueueOrderBook.runOp ArrayQueueOrderBook.add_order_fast
    cases hg : alGet b.matchers o.symbol with
    | none => simp only [hg]; exact h
    | some matcher =>
      simp only [hg]
      intro e he
      rcases mem_alSet he with he | he
      · rw [he]
        exact aq_add_inv matcher o (h (o.symbol, matcher) (alGet_mem hg))
      · exact h e he
  | addUnchecked o =>
    unfold ArrayQueueOrderBook.runOp ArrayQueueOrderBook.add_order_unchecked
    cases hg : alGet b.matchers o.symbol with
    | none => simp only [hg]; exact h
    | some matcher =>
      simp only [hg]
      intro e he
      rcases mem_alSet he with he | he
      · rw [he]
        exact aq_addU_inv matcher o (h (o.symbol, matcher) (alGet_mem hg))
      · exact h e he
  | matchAll =>
    unfold ArrayQueueOrderBook.runOp ArrayQueueOrderBook.match_orders
    intro e he
    obtain ⟨f, hf, hfe⟩ := List.mem_map.mp he
    rw [← hfe]
    exact aq_match_orders_inv f.2 (h f hf)

theorem pq_run_inv (syms : List Nat) (ops : List BookOp) :
    ∀ e ∈ ((PriorityQueueOrderBook.new syms).run ops).matchers, e.2.cacheInv := by
  suffices h : ∀ b : PriorityQueueOrderBook, (∀ e ∈ b.matchers, e.2.cacheInv) →
      ∀ e ∈ (b.run ops).matchers, e.2.cacheInv by
    apply h
    intro e he
    unfold PriorityQueueOrderBook.new at he
    obtain ⟨sym, _, hse⟩ := List.mem_map.mp he
    rw [← hse]
    exact pq_cacheInv_new
  intro b hb
  induction ops generalizing b with
  | nil => exact hb
  | cons op rest ih =>
    unfold PriorityQueueOrderBook.run at ih ⊢
    rw [List.foldl_cons]
    exact ih (b.runOp op) (pq_runOp_inv b op hb)

theorem aq_run_inv (syms : List Nat) (ops : List BookOp) :
    ∀ e ∈ ((ArrayQueueOrderBook.new syms).run ops).matchers, e.2.inv := by
  suffices h : ∀ b : ArrayQueueOrderBook, (∀ e ∈ b.matchers, e.2.inv) →
      ∀ e ∈ (b.run ops).matchers, e.2.inv by
    apply h
    intro e he
    unfold ArrayQueueOrderBook.new at he
    obtain ⟨sym, _, hse⟩ := List.mem_map.mp he
    rw [← hse]
    exact aq_new_inv
  intro b hb
  induction ops generalizing b with
  | nil => exact hb
  | cons op rest ih =>
    unfold ArrayQueueOrderBook.run at ih ⊢
    rw [List.foldl_cons]
    exact ih (b.runOp op) (aq_runOp_inv b op hb)

/-! ## Claim theorems -/

/-- C1: For the HashMap and Priority-Queue backends, for every sequence of
bid/ask orders fed to the per-symbol matcher via `add_order`, after
`match_orders()` (whose internal loop already runs to quiescence: a second
call is proved to change nothing and return no pairs), the remaining best
bid is strictly less than the remaining best ask whenever both sides are
non-empty, and every pair of orders removed together as a match satisfies
`bid.price ≥ ask.price`. -/
theorem c1_match_quiescence (os : List Order) :
    (∀ bp ap,
        ((HashMapMatcher.ofList os).match_orders).2.get_best_bid = some bp →
        ((HashMapMatcher.ofList os).match_orders).2.get_best_ask = some ap →
        bp < ap) ∧
    (∀ pr ∈ ((HashMapMatcher.ofList os).match_orders).1,
        pr.2.price ≤ pr.1.price) ∧
    ((HashMapMatcher.ofList os).match_orders).2.match_orders =
      ([], ((HashMapMatcher.ofList os).match_orders).2) ∧
    (∀ bp ap,
        (((PriorityQueueMatcher.ofList os).match_orders).2.get_best_prices).1 =
          some bp →
        (((PriorityQueueMatcher.ofList os).match_orders).2.get_best_prices).2 =
          some ap →
        bp < ap) ∧
    (∀ pr ∈ ((PriorityQueueMatcher.ofList os).match_orders).1,
        pr.2.price ≤ pr.1.price) ∧
    ((PriorityQueueMatcher.ofList os).match_orders).2.match_orders =
      ([], ((PriorityQueueMatcher.ofList os).match_orders).2) := by
  obtain ⟨hwb, hwa⟩ := hm_WF_ofList os
  have hhm := hm_match_orders_spec (HashMapMatcher.ofList os) hwb hwa
  have hpq := pq_match_orders_spec (PriorityQueueMatcher.ofList os)
    (pq_cacheInv_ofList os)
  refine ⟨?_, hhm.2.2.2.1, hhm.2.2.2.2, ?_, hpq.2.2.1, hpq.2.2.2⟩
  · intro bp ap hb ha
    exact hm_not_cross hhm.2.2.1 hb ha
  · intro bp ap hb ha
    exact pq_not_cross hpq.1 hpq.2.1 hb ha

/-- C2 counterexample: on the HashMap backend, two bids at price 100 with
identifiers 1 < 2 are added with the id-2 bid first; after matching against
one crossing ask, the id-2 bid is the one matched (the id-1 bid still
rests), so the bid with identifier 1 is *not* matched or exposed before the
bid with identifier 2 — the claim fails when the higher identifier arrives
first. -/
theorem c2_counterexample :
    (((HashMapMatcher.ofList
        [exBuy 2 100, exBuy 1 100, exSell 3 100]).match_orders).1.map
      (fun pr => pr.1.id) = [2]) ∧
    ¬ beforeIn (exBuy 1 100) (exBuy 2 100)
        (((HashMapMatcher.ofList
            [exBuy 2 100, exBuy 1 100, exSell 3 100]).match_orders).1.map
          (fun pr => pr.1)) := by
  constructor
  · decide
  · intro h
    have h2 := h [] [] (by decide)
    simp at h2

/-- C2 amended: on the Priority-Queue backend the lower-identifier bid at an
equal price is exposed at the heap top and matched first regardless of
insertion order; on the HashMap backend time priority is arrival order
(FIFO within the price level), so the lower-identifier bid is matched first
exactly when it was added first — equivalently whenever identifiers are
assigned in arrival order, as the specification assumes. -/
theorem c2_amended_priority :
    (∀ (m : PriorityQueueMatcher) (b1 b2 : Order), b1.price = b2.price →
        b1.id < b2.id → b1 ∈ m.bids →
        heapPeek bidCmp m.bids ≠ some b2 ∧
        beforeIn b1 b2 ((m.match_orders).1.map (fun pr => pr.1))) ∧
    (∀ (os : List Order) (b1 b2 : Order), b1.price = b2.price →
        b1.id < b2.id →
        beforeIn b1 b2 (os.filter (fun o =>
          decide (o.order_type = OrderSide.Buy) &&
          decide (o.price = b2.price))) →
        beforeIn b1 b2
          (((HashMapMatcher.ofList os).match_orders).1.map (fun pr => pr.1))) := by
  constructor
  · intro m b1 b2 hpr hid hmem
    constructor
    · cases hpb : heapPop bidCmp m.bids with
      | none =>
        rw [heapPop_eq_none_iff] at hpb
        rw [hpb] at hmem
        exact absurd hmem (by simp)
      | some r1 =>
        obtain ⟨r, rest⟩ := r1
        have hrne : r ≠ b2 := heapPop_ne_second hpb hmem hpr hid
        unfold heapPeek
        rw [hpb]
        simp [hrne]
    · unfold PriorityQueueMatcher.match_orders
      exact pqMatchLoop_priority _ m b1 b2 hpr hid hmem
  · intro os b1 b2 hpr hid hbef
    have hne : b1 ≠ b2 := by
      intro he
      rw [he] at hid
      omega
    obtain ⟨hwb, hwa⟩ := hm_WF_ofList os
    unfold HashMapMatcher.match_orders
    apply hmMatchLoop_priority _ _ b1 b2 hwb hwa hpr hne
    rw [hm_ordersAt_ofList os b2.price]
    exact hbef

/-- C2 amended, witness: concrete instantiation of both halves — on the
Priority-Queue backend with the id-2 bid added first, and on the HashMap
backend with the id-1 bid added first. -/
theorem c2_amended_priority_witness :
    (heapPeek bidCmp (PriorityQueueMatcher.ofList
        [exBuy 2 100, exBuy 1 100, exSell 3 100]).bids ≠ some (exBuy 2 100) ∧
      beforeIn (exBuy 1 100) (exBuy 2 100)
        (((PriorityQueueMatcher.ofList
            [exBuy 2 100, exBuy 1 100, exSell 3 100]).match_orders).1.map
          (fun pr => pr.1))) ∧
    beforeIn (exBuy 1 100) (exBuy 2 100)
      (((HashMapMatcher.ofList
          [exBuy 1 100, exBuy 2 100, exSell 3 100]).match_orders).1.map
        (fun pr => pr.1)) :=
  ⟨c2_amended_priority.1
      (PriorityQueueMatcher.ofList [exBuy 2 100, exBuy 1 100, exSell 3 100])
      (exBuy 1 100) (exBuy 2 100) (by decide) (by decide) (by decide),
    c2_amended_priority.2 [exBuy 1 100, exBuy 2 100, exSell 3 100]
      (exBuy 1 100) (exBuy 2 100) (by decide) (by decide)
      (by
        rw [show ([exBuy 1 100, exBuy 2 100, exSell 3 100].filter (fun o =>
            decide (o.order_type = OrderSide.Buy) &&
            decide (o.price = (exBuy 2 100).price))) =
          [exBuy 1 100, exBuy 2 100] from by decide]
        exact beforeIn_head (by decide) [exBuy 2 100])⟩

/-- C6: on the Array-Queue backend, whenever a `match_orders()` call makes
at least one match, both cached extrema are cleared afterwards, so
`get_best_prices` reports `(none, none)` — and they stay cleared under
further `match_orders` calls until a new order is pushed. -/
theorem c6_aq_reset_after_match (m : ArrayQueueMatcher)
    (h : 0 < (m.match_orders).1) :
    (m.match_orders).2.best_bid = none ∧
    (m.match_orders).2.best_ask = none ∧
    (m.match_orders).2.get_best_prices = (none, none) ∧
    (m.match_orders).2.match_orders = (0, (m.match_orders).2) := by
  by_cases hr : 0 <
      (ArrayQueueMatcher.matchAttempts ArrayQueueMatcher.max_matches m 0).1
  · have heq : m.match_orders =
        ((ArrayQueueMatcher.matchAttempts ArrayQueueMatcher.max_matches m 0).1,
          ((ArrayQueueMatcher.matchAttempts
              ArrayQueueMatcher.max_matches m 0).2).recalculate_best_prices) := by
      unfold ArrayQueueMatcher.match_orders
      rw [if_pos hr]
    rw [heq]
    exact ⟨rfl, rfl, rfl, aq_match_orders_stop _ rfl⟩
  · exfalso
    have heq : m.match_orders =
        ArrayQueueMatcher.matchAttempts ArrayQueueMatcher.max_matches m 0 := by
      unfold ArrayQueueMatcher.match_orders
      rw [if_neg hr]
    rw [heq] at h
    exact hr h

/-- C6 witness: a concrete Array-Queue matcher holding one crossing pair
matches it; afterwards both extrema read `none`. -/
theorem c6_aq_reset_after_match_witness :
    0 < ((((ArrayQueueMatcher.new.add_order (exBuy 1 100)).1.add_order
        (exSell 2 90)).1).match_orders).1 ∧
    (((((ArrayQueueMatcher.new.add_order (exBuy 1 100)).1.add_order
        (exSell 2 90)).1).match_orders).2.best_bid = none ∧
      ((((ArrayQueueMatcher.new.add_order (exBuy 1 100)).1.add_order
          (exSell 2 90)).1).match_orders).2.best_ask = none ∧
      ((((ArrayQueueMatcher.new.add_order (exBuy 1 100)).1.add_order
          (exSell 2 90)).1).match_orders).2.get_best_prices = (none, none) ∧
      ((((ArrayQueueMatcher.new.add_order (exBuy 1 100)).1.add_order
          (exSell 2 90)).1).match_orders).2.match_orders =
        (0, ((((ArrayQueueMatcher.new.add_order (exBuy 1 100)).1.add_order
          (exSell 2 90)).1).match_orders).2)) :=
  ⟨by decide, c6_aq_reset_after_match _ (by decide)⟩

/-- C7: on the Array-Queue backend, when the ring on the order's side holds
exactly its capacity of orders, the checked `add_order` (with a valid
symbol) returns `Ok(false)` and leaves the book unchanged — the new order
is dropped — while `add_order_unchecked` succeeds by evicting the oldest
resting order on that side and appending the new one. -/
theorem c7_aq_capacity (b : ArrayQueueOrderBook) (o : Order)
    (matcher : ArrayQueueMatcher)
    (hg : alGet b.matchers o.symbol = some matcher) :
    (o.order_type = OrderSide.Buy →
      matcher.bids.items.length = matcher.bids.cap → matcher.bids.cap ≠ 0 →
      b.add_order o = (b, Except.ok false) ∧
      ∃ m', alGet (b.add_order_unchecked o).matchers o.symbol = some m' ∧
        m'.bids.items = matcher.bids.items.tail ++ [o] ∧
        m'.bids.items.length = matcher.bids.cap ∧
        m'.asks = matcher.asks) ∧
    (o.order_type = OrderSide.Sell →
      matcher.asks.items.length = matcher.asks.cap → matcher.asks.cap ≠ 0 →
      b.add_order o = (b, Except.ok false) ∧
      ∃ m', alGet (b.add_order_unchecked o).matchers o.symbol = some m' ∧
        m'.asks.items = matcher.asks.items.tail ++ [o] ∧
        m'.asks.items.length = matcher.asks.cap ∧
        m'.bids = matcher.bids) := by
  constructor
  · intro hside hfull hcap
    have hpush : matcher.bids.push o = (matcher.bids, false) := by
      unfold ArrayQueue.push
      rw [if_neg (by omega)]
    have hadd : matcher.add_order o = (matcher, false) := by
      unfold ArrayQueueMatcher.add_order
      simp only [hside, hpush]
      rfl
    constructor
    · unfold ArrayQueueOrderBook.add_order
      simp only [hg, hadd]
      rw [alSet_self hg]
    · have hforce : matcher.bids.force_push o =
          { matcher.bids with items := matcher.bids.items.tail ++ [o] } := by
        unfold ArrayQueue.force_push
        rw [if_neg (by omega), if_neg hcap]
      refine ⟨matcher.add_order_unchecked o, ?_, ?_, ?_, ?_⟩
      · unfold ArrayQueueOrderBook.add_order_unchecked
        simp only [hg]
        exact alGet_alSet_self hg _
      · unfold ArrayQueueMatcher.add_order_unchecked
        simp only [hside, hforce]
      · unfold ArrayQueueMatcher.add_order_unchecked
        simp only [hside, hforce]
        show (matcher.bids.items.tail ++ [o]).length = matcher.bids.cap
        rw [List.length_append]
        have h1 : matcher.bids.items ≠ [] := by
          intro he
          rw [he] at hfull
          simp at hfull
          omega
        have h2 : matcher.bids.items.tail.length =
            matcher.bids.items.length - 1 := List.length_tail _
        simp only [List.length_singleton]
        omega
      · unfold ArrayQueueMatcher.add_order_unchecked
        simp only [hside, hforce]
  · intro hside hfull hcap
    have hpush : matcher.asks.push o = (matcher.asks, false) := by
      unfold ArrayQueue.push
      rw [if_neg (by omega)]
    have hadd : matcher.add_order o = (matcher, false) := by
      unfold ArrayQueueMatcher.add_order
      simp only [hside, hpush]
      rfl
    constructor
    · unfold ArrayQueueOrderBook.add_order
      simp only [hg, hadd]
      rw [alSet_self hg]
    · have hforce : matcher.asks.force_push o =
          { matcher.asks with items := matcher.asks.items.tail ++ [o] } := by
        unfold ArrayQueue.force_push
        rw [if_neg (by omega), if_neg hcap]
      refine ⟨matcher.add_order_unchecked o, ?_, ?_, ?_, ?_⟩
      · unfold ArrayQueueOrderBook.add_order_unchecked
        simp only [hg]
        exact alGet_alSet_self hg _
      · unfold ArrayQueueMatcher.add_order_unchecked
        simp only [hside, hforce]
      · unfold ArrayQueueMatcher.add_order_unchecked
        simp only [hside, hforce]
        show (matcher.asks.items.tail ++ [o]).length = matcher.asks.cap
        rw [List.length_append]
        have h1 : matcher.asks.items ≠ [] := by
          intro he
          rw [he] at hfull
          simp at hfull
          omega
        have h2 : matcher.asks.items.tail.length =
            matcher.asks.items.length - 1 := List.length_tail _
        simp only [List.length_singleton]
        omega
      · unfold ArrayQueueMatcher.add_order_unchecked
        simp only [hside, hforce]

/-- C7 witness: a book whose bid ring holds exactly 4096 orders refuses the
next checked buy and force-inserts it on the unchecked path, evicting the
oldest. -/
theorem c7_aq_capacity_witness :
    aqFullBook.add_order (exBuy 7 60) = (aqFullBook, Except.ok false) ∧
    ∃ m', alGet (aqFullBook.add_order_unchecked (exBuy 7 60)).matchers
        (exBuy 7 60).symbol = some m' ∧
      m'.bids.items = aqFullBidMatcher.bids.items.tail ++ [exBuy 7 60] ∧
      m'.bids.items.length = aqFullBidMatcher.bids.cap ∧
      m'.asks = aqFullBidMatcher.asks :=
  (c7_aq_capacity aqFullBook (exBuy 7 60) aqFullBidMatcher rfl).1 rfl
    (by simp [aqFullBidMatcher]) (by decide)

/-- C4: for every backend and every state reachable from construction by
any sequence of add/match operations, `add_order` with a symbol outside the
construction-time symbol set fails with `InvalidSymbol` and returns the
book unchanged. -/
theorem c4_invalid_symbol (syms : List Nat) (ops : List BookOp) (o : Order)
    (h : o.symbol ∉ syms) :
    ((HashMapOrderBook.new syms).run ops).add_order o =
      ((HashMapOrderBook.new syms).run ops,
        Except.error OrderBookError.InvalidSymbol) ∧
    ((PriorityQueueOrderBook.new syms).run ops).add_order o =
      ((PriorityQueueOrderBook.new syms).run ops,
        Except.error OrderBookError.InvalidSymbol) ∧
    ((ArrayQueueOrderBook.new syms).run ops).add_order o =
      ((ArrayQueueOrderBook.new syms).run ops,
        Except.error OrderBookError.InvalidSymbol) := by
  refine ⟨?_, ?_, ?_⟩
  · have hg : alGet ((HashMapOrderBook.new syms).run ops).matchers o.symbol =
        none := by
      rw [alGet_eq_none_iff, hm_run_keys]
      exact h
    unfold HashMapOrderBook.add_order
    rw [hg]
  · have hg : alGet ((PriorityQueueOrderBook.new syms).run ops).matchers
        o.symbol = none := by
      rw [alGet_eq_none_iff, pq_run_keys]
      exact h
    unfold PriorityQueueOrderBook.add_order
    rw [hg]
  · have hg : alGet ((ArrayQueueOrderBook.new syms).run ops).matchers
        o.symbol = none := by
      rw [alGet_eq_none_iff, aq_run_keys]
      exact h
    unfold ArrayQueueOrderBook.add_order
    rw [hg]

/-- C4 witness: symbol 7 is rejected by all three books built on the symbol
set `[0]`. -/
theorem c4_invalid_symbol_witness :
    (Order.mk 5 7 1 100 OrderSide.Buy).symbol ∉ ([0] : List Nat) ∧
    (((HashMapOrderBook.new [0]).run []).add_order
        (Order.mk 5 7 1 100 OrderSide.Buy) =
      ((HashMapOrderBook.new [0]).run [],
        Except.error OrderBookError.InvalidSymbol) ∧
     ((PriorityQueueOrderBook.new [0]).run []).add_order
        (Order.mk 5 7 1 100 OrderSide.Buy) =
      ((PriorityQueueOrderBook.new [0]).run [],
        Except.error OrderBookError.InvalidSymbol) ∧
     ((ArrayQueueOrderBook.new [0]).run []).add_order
        (Order.mk 5 7 1 100 OrderSide.Buy) =
      ((ArrayQueueOrderBook.new [0]).run [],
        Except.error OrderBookError.InvalidSymbol)) :=
  ⟨by decide, c4_invalid_symbol [0] [] (Order.mk 5 7 1 100 OrderSide.Buy)
    (by decide)⟩

/-- C5: for every backend, every reachable book state and every symbol,
`can_match s` is true iff the reported best bid on `s` is at least the
reported best ask on `s` — in particular false when `s` is unknown
(`get_best_prices` returns `none`) or when either side reports no price. -/
theorem c5_can_match (syms : List Nat) (ops : List BookOp) (s : Nat) :
    (((HashMapOrderBook.new syms).run ops).can_match s = true ↔
      ∃ bb ba, ((HashMapOrderBook.new syms).run ops).get_best_prices s =
        some (some bb, some ba) ∧ ba ≤ bb) ∧
    (((PriorityQueueOrderBook.new syms).run ops).can_match s = true ↔
      ∃ bb ba, ((PriorityQueueOrderBook.new syms).run ops).get_best_prices s =
        some (some bb, some ba) ∧ ba ≤ bb) ∧
    (((ArrayQueueOrderBook.new syms).run ops).can_match s = true ↔
      ∃ bb ba, ((ArrayQueueOrderBook.new syms).run ops).get_best_prices s =
        some (some bb, some ba) ∧ ba ≤ bb) := by
  refine ⟨?_, ?_, ?_⟩
  · unfold HashMapOrderBook.can_match HashMapOrderBook.get_best_prices
    cases hg : alGet ((HashMapOrderBook.new syms).run ops).matchers s with
    | none => simp
    | some m =>
      show m.can_match = true ↔
        ∃ bb ba, some m.get_best_prices = some (some bb, some ba) ∧ ba ≤ bb
      simp only [Option.some.injEq]
      exact hm_can_match_iff m
  · unfold PriorityQueueOrderBook.can_match PriorityQueueOrderBook.get_best_prices
    cases hg : alGet ((PriorityQueueOrderBook.new syms).run ops).matchers s with
    | none => simp
    | some m =>
      show m.can_match = true ↔
        ∃ bb ba, some m.get_best_prices = some (some bb, some ba) ∧ ba ≤ bb
      simp only [Option.some.injEq]
      exact pq_can_match_iff m (pq_run_inv syms ops (s, m) (alGet_mem hg))
  · unfold ArrayQueueOrderBook.can_match ArrayQueueOrderBook.get_best_prices
    cases hg : alGet ((ArrayQueueOrderBook.new syms).run ops).matchers s with
    | none => simp
    | some m =>
      show m.can_match = true ↔
        ∃ bb ba, some m.get_best_prices = some (some bb, some ba) ∧ ba ≤ bb
      simp only [Option.some.injEq]
      exact aq_can_match_iff m (aq_run_inv syms ops (s, m) (alGet_mem hg))

/-- C9: routing an order whose symbol has no per-symbol book returns an
error and leaves the router — every per-symbol book — unchanged. -/
theorem c9_router_invalid_symbol {β : Type} (iface : BookIface β)
    (r : OrderRouter β) (o : Order)
    (h : alGet r.direct_order_books o.symbol = none) :
    OrderRouter.route_order iface r o = (r, Except.error "Invalid symbol") := by
  unfold OrderRouter.route_order
  rw [h]

/-- C9 witness: a router over symbol 0 (HashMap backend) rejects an order
on symbol 7 without touching its book. -/
theorem c9_router_invalid_symbol_witness :
    alGet (OrderRouter.new_direct [0] HashMapOrderBook.new).direct_order_books
        (Order.mk 5 7 1 100 OrderSide.Buy).symbol = none ∧
    OrderRouter.route_order hmIface
        (OrderRouter.new_direct [0] HashMapOrderBook.new)
        (Order.mk 5 7 1 100 OrderSide.Buy) =
      (OrderRouter.new_direct [0] HashMapOrderBook.new,
        Except.error "Invalid symbol") :=
  ⟨rfl, c9_router_invalid_symbol hmIface
    (OrderRouter.new_direct [0] HashMapOrderBook.new)
    (Order.mk 5 7 1 100 OrderSide.Buy) rfl⟩

theorem aq_book_add_fail_unchanged (book : ArrayQueueOrderBook) (o : Order)
    (h : (book.add_order_fast o).2 = false) :
    (book.add_order_fast o).1 = book := by
  unfold ArrayQueueOrderBook.add_order_fast at h ⊢
  cases hgm : alGet book.matchers o.symbol with
  | none => simp only [hgm]
  | some matcher =>
    simp only [hgm] at h ⊢
    have hm : (matcher.add_order o).1 = matcher := by
      unfold ArrayQueueMatcher.add_order at h ⊢
      cases hside : o.order_type with
      | Buy =>
        simp only [hside] at h ⊢
        by_cases hp : (matcher.bids.push o).2 = true
        · rw [if_pos hp] at h
          exact absurd h (by simp)
        · rw [if_neg hp]
      | Sell =>
        simp only [hside] at h ⊢
        by_cases hp : (matcher.asks.push o).2 = true
        · rw [if_pos hp] at h
          exact absurd h (by simp)
        · rw [if_neg hp]
    rw [hm, alSet_self hgm]

/-- C10: whenever the order's symbol is present in the router, route_order
reports `Ok(())` no matter what the book's fast-add path returned; when
that fast add failed (for example a full Array-Queue ring), the order is
silently dropped — the router state is completely unchanged — yet the
caller is told the routing succeeded. -/
theorem c10_router_silent_drop (r : OrderRouter ArrayQueueOrderBook)
    (o : Order) (book : ArrayQueueOrderBook)
    (hg : alGet r.direct_order_books o.symbol = some book) :
    (OrderRouter.route_order aqIface r o).2 = Except.ok () ∧
    ((book.add_order_fast o).2 = false →
      OrderRouter.route_order aqIface r o = (r, Except.ok ())) := by
  constructor
  · unfold OrderRouter.route_order
    simp only [hg]
  · intro hfail
    have hbook := aq_book_add_fail_unchanged book o hfail
    unfold OrderRouter.route_order
    simp only [hg]
    show ((OrderRouter.mk
        (alSet r.direct_order_books o.symbol (book.add_order_fast o).1) :
          OrderRouter ArrayQueueOrderBook), Except.ok ()) = (r, Except.ok ())
    rw [hbook, alSet_self hg]

/-- C10 witness: a router whose only book has a full bid ring accepts a buy
with `Ok(())` while the book drops it and nothing changes. -/
theorem c10_router_silent_drop_witness :
    (OrderRouter.route_order aqIface
        (OrderRouter.mk [(0, aqFullBook)]) (exBuy 7 60)).2 = Except.ok () ∧
    OrderRouter.route_order aqIface
        (OrderRouter.mk [(0, aqFullBook)]) (exBuy 7 60) =
      (OrderRouter.mk [(0, aqFullBook)], Except.ok ()) :=
  ⟨(c10_router_silent_drop (OrderRouter.mk [(0, aqFullBook)]) (exBuy 7 60)
      aqFullBook rfl).1,
   (c10_router_silent_drop (OrderRouter.mk [(0, aqFullBook)]) (exBuy 7 60)
      aqFullBook rfl).2
    (by
      have hg : alGet aqFullBook.matchers (exBuy 7 60).symbol =
          some aqFullBidMatcher := rfl
      unfold ArrayQueueOrderBook.add_order_fast
      simp only [hg]
      show (aqFullBidMatcher.add_order (exBuy 7 60)).2 = false
      have hside : (exBuy 7 60).order_type = OrderSide.Buy := rfl
      have hpush : aqFullBidMatcher.bids.push (exBuy 7 60) =
          (aqFullBidMatcher.bids, false) := by
        unfold ArrayQueue.push
        rw [if_neg (by simp [aqFullBidMatcher])]
      unfold ArrayQueueMatcher.add_order
      simp only [hside, hpush]
      rfl)⟩

/-- C3: under the precondition that order identifiers are assigned in
arrival order (strictly increasing along the added sequence), the HashMap
and Priority-Queue backends are equivalent: building both matchers from
the same order sequence and running `match_orders` yields the identical
list of matched pairs, and the resting orders on each side of the two
final states are equal as multisets (permutations of one another). -/
theorem c3_backend_equivalence (os : List Order)
    (h : os.Pairwise (fun a b => a.id < b.id)) :
    ((HashMapMatcher.ofList os).match_orders).1 =
      ((PriorityQueueMatcher.ofList os).match_orders).1 ∧
    ((HashMapMatcher.ofList os).match_orders).2.bid_levels.flat.Perm
      ((PriorityQueueMatcher.ofList os).match_orders).2.bids ∧
    ((HashMapMatcher.ofList os).match_orders).2.ask_levels.flat.Perm
      ((PriorityQueueMatcher.ofList os).match_orders).2.asks := by
  have R := rel_ofList os h
  have hsz : (PriorityQueueMatcher.ofList os).bids.length +
      (PriorityQueueMatcher.ofList os).asks.length =
      (HashMapMatcher.ofList os).size := by
    unfold HashMapMatcher.size
    rw [R.permB.length_eq, R.permA.length_eq]
  unfold HashMapMatcher.match_orders PriorityQueueMatcher.match_orders
  rw [hsz]
  have hls := matchLoop_lockstep ((HashMapMatcher.ofList os).size + 1)
    (HashMapMatcher.ofList os) (PriorityQueueMatcher.ofList os) R (by omega)
  exact ⟨hls.1, hls.2.permB, hls.2.permA⟩

theorem c3_backend_equivalence_witness :
    [exBuy 1 100, exSell 2 90].Pairwise (fun a b => a.id < b.id) ∧
    (((HashMapMatcher.ofList [exBuy 1 100, exSell 2 90]).match_orders).1 =
      ((PriorityQueueMatcher.ofList [exBuy 1 100, exSell 2 90]).match_orders).1 ∧
    ((HashMapMatcher.ofList
        [exBuy 1 100, exSell 2 90]).match_orders).2.bid_levels.flat.Perm
      ((PriorityQueueMatcher.ofList [exBuy 1 100, exSell 2 90]).match_orders).2.bids ∧
    ((HashMapMatcher.ofList
        [exBuy 1 100, exSell 2 90]).match_orders).2.ask_levels.flat.Perm
      ((PriorityQueueMatcher.ofList [exBuy 1 100, exSell 2 90]).match_orders).2.asks) :=
  ⟨by decide, c3_backend_equivalence [exBuy 1 100, exSell 2 90] (by decide)⟩

end RustOB
